import Mathlib

set_option maxHeartbeats 1000000

/- Verification of Clementine's grouped library index (src/src/library.h).
   The header declares the interface: the GroupBy enumeration, the Grouping
   triple, the slots SongsDiscovered / SongsDeleted / Reset / SetGroupBy,
   the item-construction helpers (ItemFromSong, ItemFromQuery,
   CreateCompilationArtistNode, TextOrUnknown, SortText, SortTextForArtist,
   SortTextForYear, DividerKey, DividerDisplayText) and the lookup maps
   song_nodes_, container_nodes_[3] and divider_nodes_.  The function bodies
   are not part of the available source surface, so they are modelled from
   the specification.  Following the spec's design notes the tree is
   represented as an arena of nodes addressed by their key path; the lookup
   maps are the spec's "auxiliary indices over the tree" and are modelled as
   derived views of the node arena. -/

namespace Clementine

/-- GroupBy enumeration, mirroring library.h lines 53-61 (stable persisted
numeric codes, in declaration order). -/
inductive GroupBy where
  | GroupBy_None
  | GroupBy_Artist
  | GroupBy_Album
  | GroupBy_YearAlbum
  | GroupBy_Year
  | GroupBy_Composer
  | GroupBy_Genre
deriving DecidableEq

/-- The stable numeric codes of GroupBy ("These values get saved in
QSettings - don't change them", library.h line 52). -/
def GroupBy.code : GroupBy → Nat
  | .GroupBy_None => 0
  | .GroupBy_Artist => 1
  | .GroupBy_Album => 2
  | .GroupBy_YearAlbum => 3
  | .GroupBy_Year => 4
  | .GroupBy_Composer => 5
  | .GroupBy_Genre => 6

/-- Grouping: ordered triple of GroupBy (library.h lines 64-74). -/
structure Grouping where
  first : GroupBy
  second : GroupBy
  third : GroupBy
deriving DecidableEq

/-- The default constructor of Grouping (library.h line 65):
`Grouping() : first(GroupBy_None), second(GroupBy_None), third(GroupBy_None)`. -/
def defaultGrouping : Grouping :=
  ⟨GroupBy.GroupBy_None, GroupBy.GroupBy_None, GroupBy.GroupBy_None⟩

/-- `Grouping::operator[]` (library.h lines 72-73). -/
def Grouping.getAt (g : Grouping) : Nat → GroupBy
  | 0 => g.first
  | 1 => g.second
  | _ => g.third

/-- Modelled from the spec: a Song record (spec section 3) — the immutable
metadata supplied by the external store.  The mtime field carries the
recency stamp consulted by the age filter (spec section 6). -/
structure Song where
  id : Nat
  artist : String
  album : String
  albumartist : String
  composer : String
  genre : String
  title : String
  url : String
  year : Int
  track : Nat
  mtime : Nat
  compilation : Bool
deriving DecidableEq

/-- Modelled from the spec: a backend query-result row, "which carries the
same fields" as a Song (spec section 4.2), read by ItemFromQuery instead of
a fully materialised Song. -/
structure QueryRow where
  id : Nat
  artist : String
  album : String
  albumartist : String
  composer : String
  genre : String
  title : String
  url : String
  year : Int
  track : Nat
  mtime : Nat
  compilation : Bool
deriving DecidableEq

/-- The row the backend reports for a song (spec section 6: "one row per
Song matching the filter"). -/
def rowOfSong (s : Song) : QueryRow :=
  ⟨s.id, s.artist, s.album, s.albumartist, s.composer, s.genre, s.title,
   s.url, s.year, s.track, s.mtime, s.compilation⟩

/-- The Song a query row describes. -/
def songOfRow (r : QueryRow) : Song :=
  ⟨r.id, r.artist, r.album, r.albumartist, r.composer, r.genre, r.title,
   r.url, r.year, r.track, r.mtime, r.compilation⟩

/- ---------------------------------------------------------------------
   Text normalizer (spec section 4.1).  Modelled from the spec: the bodies
   of SortText, SortTextForArtist, SortTextForYear, TextOrUnknown,
   PrettyYearAlbum, DividerKey and DividerDisplayText are not in the
   available source surface (library.h lines 153-161 declares them).
   --------------------------------------------------------------------- -/

/-- Characters kept by normalisation: ordering ignores punctuation. -/
def keepChar (c : Char) : Bool := c.isAlphanum || c = ' '

/-- Collapse interior runs of spaces to a single space and drop a trailing
space run (a leading run is removed separately). -/
def squeeze : List Char → List Char
  | [] => []
  | c :: cs =>
    if c = ' ' then
      match squeeze cs with
      | [] => []
      | d :: r => if d = ' ' then d :: r else ' ' :: d :: r
    else c :: squeeze cs

/-- Modelled from the spec: SortText normalisation on character lists —
lower-case, strip punctuation, collapse whitespace (spec section 4.1). -/
def sortChars (t : List Char) : List Char :=
  squeeze (((t.map Char.toLower).filter keepChar).dropWhile (fun c => c = ' '))

/-- Modelled from the spec: `SortText(text) -> key` (library.h line 156;
spec section 4.1). -/
def SortText (t : String) : String := String.mk (sortChars t.toList)

/-- Sentinel sort key for an unknown/empty artist; '~' orders after every
alphanumeric character, so the sentinel "sorts after all known keys". -/
def sentinelArtistKey : String := "~unknown~"

/-- Strip one leading article ("the ", "an ", "a ") from a normalised key. -/
def stripArticleChars : List Char → List Char
  | 't' :: 'h' :: 'e' :: ' ' :: rest => rest
  | 'a' :: 'n' :: ' ' :: rest => rest
  | 'a' :: ' ' :: rest => rest
  | k => k

/-- Does a normalised key begin with one of the stripped articles? -/
def articleStart : List Char → Bool
  | 't' :: 'h' :: 'e' :: ' ' :: _ => true
  | 'a' :: 'n' :: ' ' :: _ => true
  | 'a' :: ' ' :: _ => true
  | _ => false

/-- Modelled from the spec: `SortTextForArtist(artist) -> key` (library.h
line 157; spec section 4.1): SortText plus stripping of one leading
article; an unknown/empty artist maps to a sentinel key sorting last. -/
def SortTextForArtist (artist : String) : String :=
  let k := sortChars artist.toList
  if k = [] then sentinelArtistKey else String.mk (stripArticleChars k)

/-- Zero-pad a year to four digits for lexicographic = numeric ordering. -/
def pad4 (n : Nat) : String :=
  if n < 10 then "000" ++ toString n
  else if n < 100 then "00" ++ toString n
  else if n < 1000 then "0" ++ toString n
  else toString n

/-- Modelled from the spec: `SortTextForYear(year) -> key` (library.h line
158; spec section 4.1).  Chosen policy for the open question of section 9:
the unknown year (0, and negatives treated alike) sorts FIRST, as the key
"0000", before every known year. -/
def SortTextForYear (year : Int) : String :=
  if year ≤ 0 then "0000" else pad4 year.toNat

/-- Modelled from the spec: `TextOrUnknown(text)` (library.h line 153):
empty input renders as the fixed label "Unknown", never an empty string
(spec section 4.2 step 4). -/
def TextOrUnknown (text : String) : String :=
  if text = "" then "Unknown" else text

/-- Modelled from the spec: `PrettyYearAlbum(year, album)` (library.h line
154): the combined year+album display label (spec section 3). -/
def PrettyYearAlbum (year : Int) (album : String) : String :=
  (if year ≤ 0 then "Unknown" else toString year.toNat) ++ " - " ++
    TextOrUnknown album

/-- Lower-case a string (character-wise). -/
def lowerStr (t : String) : String := String.mk (t.toList.map Char.toLower)

/-- Upper-case a string (character-wise). -/
def upperStr (t : String) : String := String.mk (t.toList.map Char.toUpper)

/-- Case-normalised container key for a raw field value (spec section 4.2:
"Keys are case-normalized but display text preserves original casing";
empty values map to the synthetic "Unknown" key). -/
def normKey (raw : String) : String := lowerStr (TextOrUnknown raw)

/-- First-letter bucket of a normalised artist key, with the sentinel
"other" bucket for non-alphabetic keys (spec section 4.1). -/
def letterBucket (k : String) : String :=
  match k.toList with
  | c :: _ => if c.isAlpha then String.mk [c] else "other"
  | [] => "other"

/-- Decade bucket for year dividers (spec section 4.1). -/
def decadeKey (year : Int) : String :=
  if year ≤ 0 then "0000" else pad4 (year.toNat / 10 * 10)

/-- Modelled from the spec: the divider key for a song at a grouping
dimension (library.h line 160): Artist grouping yields the first normalised
letter, Year grouping the decade bucket, every other GroupBy produces no
divider (spec section 4.1). -/
def DividerKeyFor : GroupBy → Song → Option String
  | .GroupBy_Artist, s => some (letterBucket (SortTextForArtist s.artist))
  | .GroupBy_Year, s => some (decadeKey s.year)
  | _, _ => none

/-- Modelled from the spec: the divider key computed from a query row
instead of a Song (used by ItemFromQuery). -/
def dividerKeyForRow : GroupBy → QueryRow → Option String
  | .GroupBy_Artist, r => some (letterBucket (SortTextForArtist r.artist))
  | .GroupBy_Year, r => some (decadeKey r.year)
  | _, _ => none

/-- Modelled from the spec: `DividerDisplayText(type, key)` (library.h
line 161). -/
def DividerDisplayText (type : GroupBy) (key : String) : String :=
  match type with
  | .GroupBy_Artist => if key = "other" then "Other" else upperStr key
  | .GroupBy_Year => key
  | _ => ""

/- ---------------------------------------------------------------------
   Grouping engine and index tree (spec sections 4.2, 4.3, 4.5).
   Modelled from the spec: the bodies of ItemFromSong, ItemFromQuery,
   CreateCompilationArtistNode, SongsDiscovered, SongsDeleted, Reset and
   SetGroupBy are not in the available source surface (library.h lines
   110-150 declares them).  Following the spec's design notes (section 9)
   the tree below Root is an arena of nodes addressed by their key path;
   a node's parent is the node at the key path one element shorter. -/

/-- A path element: the identity of one node among its siblings — a
divider key, a (level, container key) pair, the single compilation-artist
node, or a song id. -/
inductive PElem where
  | div (key : String)
  | cont (level : Nat) (key : String)
  | comp
  | song (id : Nat)
deriving DecidableEq

/-- The key/display/sort data ItemFromSong computes for one level (spec
section 4.2 steps 2 and 4). -/
structure StepInfo where
  elem : PElem
  display : String
  sortKey : String
deriving DecidableEq

/-- Modelled from the spec: the container key, display text and sort key a
song yields at one grouping dimension — artist name, album name, year+album
label, year, composer or genre, with display text `TextOrUnknown(raw)` and
sort text from the normaliser (spec section 4.2 steps 2 and 4). -/
def stepInfoFor (gb : GroupBy) (level : Nat) (s : Song) : StepInfo :=
  match gb with
  | .GroupBy_Artist =>
    ⟨.cont level (normKey s.artist), TextOrUnknown s.artist,
     SortTextForArtist s.artist⟩
  | .GroupBy_Album =>
    ⟨.cont level (normKey s.album), TextOrUnknown s.album, SortText s.album⟩
  | .GroupBy_YearAlbum =>
    ⟨.cont level (SortTextForYear s.year ++ " " ++ normKey s.album),
     PrettyYearAlbum s.year s.album,
     SortTextForYear s.year ++ SortText s.album⟩
  | .GroupBy_Year =>
    ⟨.cont level (SortTextForYear s.year),
     if s.year ≤ 0 then "Unknown" else toString s.year.toNat,
     SortTextForYear s.year⟩
  | .GroupBy_Composer =>
    ⟨.cont level (normKey s.composer), TextOrUnknown s.composer,
     SortText s.composer⟩
  | .GroupBy_Genre =>
    ⟨.cont level (normKey s.genre), TextOrUnknown s.genre, SortText s.genre⟩
  | .GroupBy_None => ⟨.cont level "", "", ""⟩

/-- Modelled from the spec: the same level data read from a query-result
row instead of a materialised Song (ItemFromQuery, spec section 4.2). -/
def stepInfoForRow (gb : GroupBy) (level : Nat) (r : QueryRow) : StepInfo :=
  match gb with
  | .GroupBy_Artist =>
    ⟨.cont level (normKey r.artist), TextOrUnknown r.artist,
     SortTextForArtist r.artist⟩
  | .GroupBy_Album =>
    ⟨.cont level (normKey r.album), TextOrUnknown r.album, SortText r.album⟩
  | .GroupBy_YearAlbum =>
    ⟨.cont level (SortTextForYear r.year ++ " " ++ normKey r.album),
     PrettyYearAlbum r.year r.album,
     SortTextForYear r.year ++ SortText r.album⟩
  | .GroupBy_Year =>
    ⟨.cont level (SortTextForYear r.year),
     if r.year ≤ 0 then "Unknown" else toString r.year.toNat,
     SortTextForYear r.year⟩
  | .GroupBy_Composer =>
    ⟨.cont level (normKey r.composer), TextOrUnknown r.composer,
     SortText r.composer⟩
  | .GroupBy_Genre =>
    ⟨.cont level (normKey r.genre), TextOrUnknown r.genre, SortText r.genre⟩
  | .GroupBy_None => ⟨.cont level "", "", ""⟩

/-- Modelled from the spec: CreateCompilationArtistNode's data (library.h
lines 144-145): the single "Various Artists" container. -/
def compStepInfo : StepInfo := ⟨.comp, "Various Artists", " various"⟩

/-- Divider level produced in front of a container, when the dimension
supports dividers (spec section 4.2 step 3). -/
def dividerInfoFor (gb : GroupBy) (s : Song) : List StepInfo :=
  match DividerKeyFor gb s with
  | some k => [⟨.div k, DividerDisplayText gb k, k⟩]
  | none => []

/-- Divider level computed from a query row (ItemFromQuery side). -/
def dividerInfoForRow (gb : GroupBy) (r : QueryRow) : List StepInfo :=
  match dividerKeyForRow gb r with
  | some k => [⟨.div k, DividerDisplayText gb k, k⟩]
  | none => []

/-- The active grouping dimensions with their levels: `None` at a position
means "stop nesting here" (spec section 3). -/
def activeLevels (g : Grouping) : List (Nat × GroupBy) :=
  if g.first = GroupBy.GroupBy_None then []
  else (0, g.first) ::
    (if g.second = GroupBy.GroupBy_None then []
     else (1, g.second) ::
       (if g.third = GroupBy.GroupBy_None then [] else [(2, g.third)]))

/-- Modelled from the spec: the level data of a song's whole key path
(ItemFromSong driven through every remaining level, spec section 4.2):
a compilation song under first-level Artist routes to the compilation
artist node instead of a per-artist container (step 1); otherwise a
divider level is produced at the first level when the dimension supports
one (step 3), and deeper levels nest containers directly. -/
def songStepInfos (g : Grouping) (s : Song) : List StepInfo :=
  match activeLevels g with
  | [] => []
  | (l0, gb0) :: rest =>
    if gb0 = GroupBy.GroupBy_Artist ∧ s.compilation then
      compStepInfo :: rest.map (fun p => stepInfoFor p.2 p.1 s)
    else
      dividerInfoFor gb0 s ++
        stepInfoFor gb0 l0 s :: rest.map (fun p => stepInfoFor p.2 p.1 s)

/-- Modelled from the spec: the level data of a row's whole key path
(ItemFromQuery driven through every remaining level). -/
def rowStepInfos (g : Grouping) (r : QueryRow) : List StepInfo :=
  match activeLevels g with
  | [] => []
  | (l0, gb0) :: rest =>
    if gb0 = GroupBy.GroupBy_Artist ∧ r.compilation then
      compStepInfo :: rest.map (fun p => stepInfoForRow p.2 p.1 r)
    else
      dividerInfoForRow gb0 r ++
        stepInfoForRow gb0 l0 r :: rest.map (fun p => stepInfoForRow p.2 p.1 r)

/-- A node of the arena: its key path from Root (exclusive), its display
label, its sort key and, for song nodes, the wrapped Song. -/
structure TreeNode where
  path : List PElem
  display : String
  sortKey : String
  song : Option Song
deriving DecidableEq

/-- The index-tree state: the active Grouping (`group_by_`, library.h line
178) and every node below Root. -/
structure LibState where
  group_by : Grouping
  nodes : List TreeNode
deriving DecidableEq

/-- The state at startup: Root exists with nothing below it. -/
def initState (g : Grouping) : LibState := ⟨g, []⟩

/-- The song id a node wraps, when it is a SongNode. -/
def nodeSongId (n : TreeNode) : Option Nat :=
  match n.path.getLast? with
  | some (.song i) => some i
  | _ => none

def isSongNodeT (n : TreeNode) : Bool := (nodeSongId n).isSome

def isDividerT (n : TreeNode) : Bool :=
  match n.path.getLast? with
  | some (.div _) => true
  | _ => false

def isContainerT (n : TreeNode) : Bool :=
  match n.path.getLast? with
  | some (.cont _ _) => true
  | _ => false

/-- Is the song id indexed?  (The song-id map lookup, library.h line 181.) -/
def hasSongId (st : LibState) (i : Nat) : Bool :=
  st.nodes.any (fun n => decide (nodeSongId n = some i))

/-- Create-or-reuse: add the node unless a node with its key path already
exists (the O(1) reuse-or-create of the lookup maps, spec section 3). -/
def ensure (ns : List TreeNode) (nd : TreeNode) : List TreeNode :=
  if ns.any (fun n => decide (n.path = nd.path)) then ns else ns ++ [nd]

/-- Realise a song's key path: create-or-reuse the node of every level and
finally the SongNode leaf (spec section 4.2 steps 3-6). -/
def insertNodes (s : Song) : List StepInfo → List PElem → List TreeNode → List TreeNode
  | [], pfx, ns =>
    ensure ns ⟨pfx ++ [PElem.song s.id], s.title, SortText s.title, some s⟩
  | i :: rest, pfx, ns =>
    insertNodes s rest (pfx ++ [i.elem])
      (ensure ns ⟨pfx ++ [i.elem], i.display, i.sortKey, none⟩)

/-- Mirror of insertNodes on the ItemFromQuery side: the SongNode payload
is reconstructed from the row. -/
def insertNodesRow (r : QueryRow) : List StepInfo → List PElem → List TreeNode → List TreeNode
  | [], pfx, ns =>
    ensure ns ⟨pfx ++ [PElem.song r.id], r.title, SortText r.title,
      some (songOfRow r)⟩
  | i :: rest, pfx, ns =>
    insertNodesRow r rest (pfx ++ [i.elem])
      (ensure ns ⟨pfx ++ [i.elem], i.display, i.sortKey, none⟩)

/-- Modelled from the spec: one song of a SongsDiscovered batch (library.h
line 119; spec section 4.5): re-discovering an already indexed id is a
no-op, otherwise ItemFromSong realises the song's key path. -/
def insertSong (st : LibState) (s : Song) : LibState :=
  if hasSongId st s.id then st
  else { st with nodes := insertNodes s (songStepInfos st.group_by s) [] st.nodes }

/-- Modelled from the spec: the SongsDiscovered handler over a batch. -/
def insertSongs (st : LibState) (songs : List Song) : LibState :=
  songs.foldl insertSong st

/-- Modelled from the spec: one row of a bulk-population query driven
through ItemFromQuery (spec section 4.3). -/
def insertRow (st : LibState) (r : QueryRow) : LibState :=
  if hasSongId st r.id then st
  else { st with nodes := insertNodesRow r (rowStepInfos st.group_by r) [] st.nodes }

/-- Is `p` a strict (proper) front segment of `q`? -/
def strictPfxB : List PElem → List PElem → Bool
  | [], [] => false
  | [], _ :: _ => true
  | _ :: _, [] => false
  | a :: p, b :: q => if a = b then strictPfxB p q else false

/-- Drop the SongNode carrying the given id. -/
def removeSongNodes (ns : List TreeNode) (i : Nat) : List TreeNode :=
  ns.filter (fun n => decide (¬ nodeSongId n = some i))

/-- Pruning (spec section 4.5 SongsDeleted): keep SongNodes, and keep a
Container or Divider only while some SongNode still descends from it —
a childless Container is removed, and recursively its parent Divider or
Container when that becomes childless, up to but not including Root. -/
def pruneNodes (ns : List TreeNode) : List TreeNode :=
  ns.filter (fun n =>
    isSongNodeT n ||
      ns.any (fun m => isSongNodeT m && strictPfxB n.path m.path))

/-- Modelled from the spec: one id of a SongsDeleted batch (library.h line
120; spec section 4.5): an id not in the song-id map is a silent no-op;
otherwise the SongNode is removed and every container or divider left
without a song descendant is pruned in the same operation. -/
def deleteSong (st : LibState) (i : Nat) : LibState :=
  if hasSongId st i then
    { st with nodes := pruneNodes (removeSongNodes st.nodes i) }
  else st

/-- Modelled from the spec: the SongsDeleted handler over a batch. -/
def deleteSongs (st : LibState) (songs : List Song) : LibState :=
  songs.foldl (fun acc s => deleteSong acc s.id) st

/-- Modelled from the spec: Reset (library.h line 121; spec section 4.5):
tear down the entire tree below Root and clear the lookup maps. -/
def resetState (st : LibState) : LibState := { st with nodes := [] }

/-- Modelled from the spec: SetGroupBy (library.h line 110; spec section
4.5): a no-op when unchanged, otherwise store the Grouping and Reset. -/
def setGroupBy (st : LibState) (g : Grouping) : LibState :=
  if g = st.group_by then st else { group_by := g, nodes := [] }

/-- The song-id → SongNode lookup map (`song_nodes_`, library.h line 181),
as the derived view of the arena. -/
def songNodesMap (st : LibState) : List (Nat × TreeNode) :=
  st.nodes.filterMap (fun n => (nodeSongId n).map (fun i => (i, n)))

/-- The per-level key → Container map (`container_nodes_[3]`, library.h
line 184), as the derived view of the arena: the keys present at a level. -/
def containerKeysAt (st : LibState) (level : Nat) : List String :=
  st.nodes.filterMap (fun n =>
    match n.path.getLast? with
    | some (.cont l k) => if l = level then some k else none
    | _ => none)

/-- The key → Divider map (`divider_nodes_`, library.h line 187), as the
derived view of the arena: the divider keys present. -/
def dividerKeysOf (st : LibState) : List String :=
  st.nodes.filterMap (fun n =>
    match n.path.getLast? with
    | some (.div k) => some k
    | _ => none)

/-- Some node of the list sits at key path `p`. -/
def pathInL (ns : List TreeNode) (p : List PElem) : Prop := ∃ n ∈ ns, n.path = p

/-- Some node of the tree sits at key path `p`. -/
def pathIn (st : LibState) (p : List PElem) : Prop := pathInL st.nodes p

/-- The key paths a song's insertion realises: every level's path and the
final SongNode path. -/
def stepPaths (id : Nat) : List StepInfo → List PElem → List (List PElem)
  | [], pfx => [pfx ++ [PElem.song id]]
  | i :: rest, pfx => (pfx ++ [i.elem]) :: stepPaths id rest (pfx ++ [i.elem])

/-- The full key path of a song's SongNode under a Grouping. -/
def fullPathOf (g : Grouping) (s : Song) : List PElem :=
  (songStepInfos g s).map StepInfo.elem ++ [PElem.song s.id]

/-- The candidate nodes a song's insertion creates (those not already
present are appended). -/
def newNodes (s : Song) : List StepInfo → List PElem → List TreeNode
  | [], pfx => [⟨pfx ++ [PElem.song s.id], s.title, SortText s.title, some s⟩]
  | i :: rest, pfx =>
    ⟨pfx ++ [i.elem], i.display, i.sortKey, none⟩ :: newNodes s rest (pfx ++ [i.elem])

/-- Modelled from the spec: the active filter (QueryOptions, library.h
line 177; spec section 6): free-text substring filter plus a minimum
recency threshold. -/
structure QueryOptions where
  filterText : String
  filterAge : Nat
deriving DecidableEq

/-- Does the second character list start with the first? -/
def startsWithChars : List Char → List Char → Bool
  | [], _ => true
  | _ :: _, [] => false
  | a :: p, b :: q => if a = b then startsWithChars p q else false

/-- Does the haystack contain the needle as a contiguous run? -/
def containsChars (needle : List Char) : List Char → Bool
  | [] => startsWithChars needle []
  | c :: cs => startsWithChars needle (c :: cs) || containsChars needle cs

/-- Modelled from the spec: does a song pass the active filter? -/
def matchesFilter (o : QueryOptions) (s : Song) : Bool :=
  (decide (o.filterText = "") ||
    containsChars o.filterText.toList
      (s.artist ++ " " ++ s.album ++ " " ++ s.title).toList) &&
  decide (o.filterAge ≤ s.mtime)

/-- Bulk population driven by ItemFromSong over a song list. -/
def bulkFromSongs (g : Grouping) (songs : List Song) : LibState :=
  insertSongs (initState g) songs

/-- Bulk population driven by ItemFromQuery over the backend's rows. -/
def bulkFromRows (g : Grouping) (rows : List QueryRow) : LibState :=
  rows.foldl insertRow (initState g)

/-- Modelled from the spec: a full bulk rebuild from (Grouping, active
filter, song set): the backend reports one row per song passing the
filter and ItemFromQuery realises each row (spec sections 4.3, 6). -/
def bulkRebuild (g : Grouping) (opts : QueryOptions) (songs : List Song) : LibState :=
  bulkFromRows g ((songs.filter (matchesFilter opts)).map rowOfSong)

/-- Tree isomorphism in the spec's sense: same keys at every level, same
nesting — the two arenas realise the same set of key paths. -/
def TreeIso (a b : LibState) : Prop := ∀ p, pathIn a p ↔ pathIn b p

/-- Every Container and Divider currently has at least one SongNode
descending from it (spec section 3 invariants). -/
def Occupied (st : LibState) : Prop :=
  ∀ n ∈ st.nodes, isSongNodeT n = false →
    ∃ m ∈ st.nodes, isSongNodeT m = true ∧ strictPfxB n.path m.path = true

/-- Every strict ancestor position of a node is itself a node: a SongNode
descending below a container position implies that Container exists. -/
def AncestorsClosed (st : LibState) : Prop :=
  ∀ n ∈ st.nodes, ∀ q, q ≠ [] → strictPfxB q n.path = true → pathIn st q

/-- Every SongNode wraps the song whose key path (under the active
Grouping) it sits at. -/
def Coherent (st : LibState) : Prop :=
  ∀ n ∈ st.nodes, ∀ i, n.path.getLast? = some (PElem.song i) →
    ∃ s, n.song = some s ∧ s.id = i ∧ n.path = fullPathOf st.group_by s

/-- The index-tree invariant of spec section 3. -/
def Inv (st : LibState) : Prop := Occupied st ∧ AncestorsClosed st ∧ Coherent st

/-- Every Divider has at least one sibling Container under it. -/
def DividerHasContainer (st : LibState) : Prop :=
  ∀ n ∈ st.nodes, isDividerT n = true →
    ∃ m ∈ st.nodes, isContainerT m = true ∧ strictPfxB n.path m.path = true ∧
      m.path.length = n.path.length + 1

/-- The number of SongNodes currently wrapping the id. -/
def countSongNodes (st : LibState) (i : Nat) : Nat :=
  (st.nodes.filter (fun n => decide (nodeSongId n = some i))).length

/-- The number of CompilationArtistNodes present ("the single special
Container", spec section 3). -/
def compNodeCount (st : LibState) : Nat :=
  (st.nodes.filter (fun n => decide (n.path = [PElem.comp]))).length

/- ---------------------------------------------------------------------
   Helper lemmas: strict path segments
   --------------------------------------------------------------------- -/

theorem spfx_nil_right (p : List PElem) : strictPfxB p [] = false := by
  cases p <;> simp [strictPfxB]

theorem spfx_nil_left {q : List PElem} (h : q ≠ []) : strictPfxB [] q = true := by
  cases q with
  | nil => exact absurd rfl h
  | cons a t => rfl

theorem spfx_cons₂ {a : PElem} {p q : List PElem} (h : strictPfxB p q = true) :
    strictPfxB (a :: p) (a :: q) = true := by
  simp [strictPfxB, h]

theorem spfx_irrefl (p : List PElem) : strictPfxB p p = false := by
  induction p with
  | nil => simp [strictPfxB]
  | cons a p ih => simp [strictPfxB, ih]

theorem spfx_append (p r : List PElem) (hr : r ≠ []) :
    strictPfxB p (p ++ r) = true := by
  induction p with
  | nil =>
    cases r with
    | nil => exact absurd rfl hr
    | cons a t => simp [strictPfxB]
  | cons a p ih => simpa [strictPfxB] using ih

theorem spfx_exists {p q : List PElem} (h : strictPfxB p q = true) :
    ∃ r, r ≠ [] ∧ q = p ++ r := by
  induction p generalizing q with
  | nil =>
    cases q with
    | nil => simp [strictPfxB] at h
    | cons b t => exact ⟨b :: t, by simp, rfl⟩
  | cons a p ih =>
    cases q with
    | nil => simp [strictPfxB] at h
    | cons b t =>
      simp only [strictPfxB] at h
      by_cases hab : a = b
      · subst hab
        rw [if_pos rfl] at h
        obtain ⟨r, hr, ht⟩ := ih h
        exact ⟨r, hr, by simp [ht]⟩
      · rw [if_neg hab] at h
        exact absurd h (by simp)

theorem spfx_trans {p q r : List PElem} (h1 : strictPfxB p q = true)
    (h2 : strictPfxB q r = true) : strictPfxB p r = true := by
  obtain ⟨x, hx, rfl⟩ := spfx_exists h1
  obtain ⟨y, _, rfl⟩ := spfx_exists h2
  rw [List.append_assoc]
  exact spfx_append _ _ (by simp [hx])

theorem spfx_length {p q : List PElem} (h : strictPfxB p q = true) :
    p.length < q.length := by
  obtain ⟨r, hr, rfl⟩ := spfx_exists h
  have : 0 < r.length := List.length_pos.mpr hr
  simp only [List.length_append]
  omega

theorem spfx_snoc_iff (q p : List PElem) (e : PElem) :
    strictPfxB q (p ++ [e]) = true ↔ q = p ∨ strictPfxB q p = true := by
  induction q generalizing p with
  | nil =>
    cases p with
    | nil => simp [strictPfxB]
    | cons b t => simp [strictPfxB]
  | cons a q ih =>
    cases p with
    | nil =>
      simp only [List.nil_append, strictPfxB, spfx_nil_right]
      constructor
      · intro h
        by_cases hae : a = e
        · rw [if_pos hae] at h
          exact absurd h (by simp [spfx_nil_right])
        · rw [if_neg hae] at h
          exact absurd h (by simp)
      · rintro (h | h) <;> simp_all
    | cons b t =>
      simp only [List.cons_append, strictPfxB, List.append_eq]
      by_cases hab : a = b
      · subst hab
        simp only [if_pos rfl]
        simp only [List.cons_eq_cons, true_and]
        exact ih t
      · simp [hab]

/- ---------------------------------------------------------------------
   Helper lemmas: create-or-reuse and the realised key paths
   --------------------------------------------------------------------- -/

theorem mem_of_mem_ensure {ns : List TreeNode} {nd n : TreeNode}
    (h : n ∈ ensure ns nd) : n ∈ ns ∨ n = nd := by
  unfold ensure at h
  split at h
  · exact Or.inl h
  · rcases List.mem_append.mp h with h | h
    · exact Or.inl h
    · exact Or.inr (by simpa using h)

theorem mem_ensure_of_mem {ns : List TreeNode} {nd n : TreeNode}
    (h : n ∈ ns) : n ∈ ensure ns nd := by
  unfold ensure
  split
  · exact h
  · exact List.mem_append.mpr (Or.inl h)

theorem pathInL_ensure {ns : List TreeNode} {nd : TreeNode} {p : List PElem} :
    pathInL (ensure ns nd) p ↔ pathInL ns p ∨ p = nd.path := by
  unfold ensure pathInL
  split
  · rename_i h
    simp only [List.any_eq_true, decide_eq_true_eq] at h
    constructor
    · exact Or.inl
    · rintro (hp | rfl)
      · exact hp
      · exact h
  · constructor
    · intro hp
      obtain ⟨n, hn, hp⟩ := hp
      rcases List.mem_append.mp hn with hn | hn
      · exact Or.inl ⟨n, hn, hp⟩
      · right
        simp only [List.mem_singleton] at hn
        simp [hn] at hp
        exact hp.symm
    · rintro (⟨n, hn, hp⟩ | rfl)
      · exact ⟨n, List.mem_append.mpr (Or.inl hn), hp⟩
      · exact ⟨nd, List.mem_append.mpr (Or.inr (by simp)), rfl⟩

theorem insertNodes_sup (s : Song) (infos : List StepInfo) (pfx : List PElem)
    (ns : List TreeNode) {n : TreeNode} (h : n ∈ ns) :
    n ∈ insertNodes s infos pfx ns := by
  induction infos generalizing pfx ns with
  | nil => exact mem_ensure_of_mem h
  | cons i rest ih => exact ih _ _ (mem_ensure_of_mem h)

theorem insertNodes_sub (s : Song) (infos : List StepInfo) (pfx : List PElem)
    (ns : List TreeNode) {n : TreeNode} (h : n ∈ insertNodes s infos pfx ns) :
    n ∈ ns ∨ n ∈ newNodes s infos pfx := by
  induction infos generalizing pfx ns with
  | nil =>
    rcases mem_of_mem_ensure h with h | h
    · exact Or.inl h
    · exact Or.inr (by simp [newNodes, h])
  | cons i rest ih =>
    simp only [insertNodes] at h
    rcases ih _ _ h with h | h
    · rcases mem_of_mem_ensure h with h | h
      · exact Or.inl h
      · exact Or.inr (by simp [newNodes, h])
    · exact Or.inr (by simp [newNodes, h])

theorem insertNodes_pathIn (s : Song) (infos : List StepInfo) (pfx : List PElem)
    (ns : List TreeNode) (p : List PElem) :
    pathInL (insertNodes s infos pfx ns) p ↔
      pathInL ns p ∨ p ∈ stepPaths s.id infos pfx := by
  induction infos generalizing pfx ns with
  | nil =>
    simp only [insertNodes, stepPaths]
    rw [pathInL_ensure]
    simp
  | cons i rest ih =>
    simp only [insertNodes, stepPaths]
    rw [ih, pathInL_ensure]
    simp only [List.mem_cons]
    tauto

theorem stepPaths_self (id : Nat) (infos : List StepInfo) (pfx : List PElem) :
    (pfx ++ infos.map StepInfo.elem ++ [PElem.song id]) ∈ stepPaths id infos pfx := by
  induction infos generalizing pfx with
  | nil => simp [stepPaths]
  | cons i rest ih =>
    simp only [stepPaths, List.mem_cons]
    right
    simpa [List.append_assoc] using ih (pfx ++ [i.elem])

theorem stepPaths_char {id : Nat} {infos : List StepInfo} {pfx p : List PElem}
    (h : p ∈ stepPaths id infos pfx) :
    p = pfx ++ infos.map StepInfo.elem ++ [PElem.song id] ∨
      (strictPfxB p (pfx ++ infos.map StepInfo.elem ++ [PElem.song id]) = true ∧
        ∃ i ∈ infos, p.getLast? = some i.elem) := by
  induction infos generalizing pfx with
  | nil =>
    simp only [stepPaths, List.mem_singleton] at h
    exact Or.inl (by simpa using h)
  | cons i rest ih =>
    simp only [stepPaths, List.mem_cons] at h
    rcases h with rfl | h
    · right
      constructor
      · have : pfx ++ (i :: rest).map StepInfo.elem ++ [PElem.song id] =
            (pfx ++ [i.elem]) ++ (rest.map StepInfo.elem ++ [PElem.song id]) := by
          simp [List.append_assoc]
        rw [this]
        exact spfx_append _ _ (by simp)
      · exact ⟨i, by simp, by simp [List.getLast?_concat]⟩
    · rcases ih h with h1 | ⟨h1, i', hi', hlast⟩
      · left
        rw [h1]
        simp [List.append_assoc]
      · right
        refine ⟨?_, i', by simp [hi'], hlast⟩
        have : pfx ++ (i :: rest).map StepInfo.elem ++ [PElem.song id] =
            pfx ++ [i.elem] ++ rest.map StepInfo.elem ++ [PElem.song id] := by
          simp
        rw [this]
        exact h1

theorem newNodes_char (s : Song) (infos : List StepInfo) (pfx : List PElem)
    {n : TreeNode} (h : n ∈ newNodes s infos pfx) :
    n = ⟨pfx ++ infos.map StepInfo.elem ++ [PElem.song s.id], s.title,
          SortText s.title, some s⟩ ∨
      (n.song = none ∧
        strictPfxB n.path (pfx ++ infos.map StepInfo.elem ++ [PElem.song s.id]) = true ∧
        ∃ i ∈ infos, n.path.getLast? = some i.elem) := by
  induction infos generalizing pfx with
  | nil =>
    simp only [newNodes, List.mem_singleton] at h
    exact Or.inl (by simpa using h)
  | cons i rest ih =>
    simp only [newNodes, List.mem_cons] at h
    rcases h with rfl | h
    · right
      refine ⟨rfl, ?_, i, by simp, by simp [List.getLast?_concat]⟩
      have : pfx ++ (i :: rest).map StepInfo.elem ++ [PElem.song s.id] =
          (pfx ++ [i.elem]) ++ (rest.map StepInfo.elem ++ [PElem.song s.id]) := by
        simp [List.append_assoc]
      rw [this]
      exact spfx_append _ _ (by simp)
    · rcases ih (pfx ++ [i.elem]) h with h1 | ⟨h1, h2, i', hi', hlast⟩
      · left
        rw [h1]
        congr 1
        simp [List.append_assoc]
      · right
        refine ⟨h1, ?_, i', by simp [hi'], hlast⟩
        have : pfx ++ (i :: rest).map StepInfo.elem ++ [PElem.song s.id] =
            pfx ++ [i.elem] ++ rest.map StepInfo.elem ++ [PElem.song s.id] := by
          simp
        rw [this]
        exact h2

/- ---------------------------------------------------------------------
   Helper lemmas: node classification and step shapes
   --------------------------------------------------------------------- -/

theorem nodeSongId_eq_some {n : TreeNode} {i : Nat} :
    nodeSongId n = some i ↔ n.path.getLast? = some (PElem.song i) := by
  unfold nodeSongId
  cases h : n.path.getLast? with
  | none => simp
  | some e => cases e <;> simp

theorem isSongNodeT_iff {n : TreeNode} :
    isSongNodeT n = true ↔ ∃ i, nodeSongId n = some i := by
  unfold isSongNodeT
  simp [Option.isSome_iff_exists]

theorem stepInfoFor_elem (gb : GroupBy) (l : Nat) (s : Song) :
    ∃ k, (stepInfoFor gb l s).elem = PElem.cont l k := by
  cases gb <;> exact ⟨_, rfl⟩

theorem dividerInfoFor_elem {gb : GroupBy} {s : Song} :
    ∀ i ∈ dividerInfoFor gb s, ∃ k, i.elem = PElem.div k := by
  intro i hi
  unfold dividerInfoFor at hi
  split at hi
  · simp only [List.mem_singleton] at hi
    subst hi
    exact ⟨_, rfl⟩
  · simp at hi

theorem songStepInfos_elem_nonsong (g : Grouping) (s : Song) :
    ∀ i ∈ songStepInfos g s, ∀ j, i.elem ≠ PElem.song j := by
  intro i hi j
  rcases hact : activeLevels g with _ | ⟨⟨l0, gb0⟩, rest⟩
  · simp only [songStepInfos, hact] at hi
    simp at hi
  · simp only [songStepInfos, hact] at hi
    split at hi
    · rcases List.mem_cons.mp hi with rfl | hi
      · simp [compStepInfo]
      · obtain ⟨p, _, rfl⟩ := List.mem_map.mp hi
        obtain ⟨k, hk⟩ := stepInfoFor_elem p.2 p.1 s
        simp [hk]
    · rcases List.mem_append.mp hi with hi | hi
      · obtain ⟨k, hk⟩ := dividerInfoFor_elem i hi
        simp [hk]
      · rcases List.mem_cons.mp hi with rfl | hi
        · obtain ⟨k, hk⟩ := stepInfoFor_elem gb0 l0 s
          simp [hk]
        · obtain ⟨p, _, rfl⟩ := List.mem_map.mp hi
          obtain ⟨k, hk⟩ := stepInfoFor_elem p.2 p.1 s
          simp [hk]

/- ---------------------------------------------------------------------
   Helper lemmas: ItemFromQuery agrees with ItemFromSong
   --------------------------------------------------------------------- -/

theorem songOfRow_rowOfSong (s : Song) : songOfRow (rowOfSong s) = s := rfl

theorem stepInfoForRow_rowOfSong (gb : GroupBy) (l : Nat) (s : Song) :
    stepInfoForRow gb l (rowOfSong s) = stepInfoFor gb l s := by
  cases gb <;> rfl

theorem dividerInfoForRow_rowOfSong (gb : GroupBy) (s : Song) :
    dividerInfoForRow gb (rowOfSong s) = dividerInfoFor gb s := by
  cases gb <;> rfl

theorem rowStepInfos_rowOfSong (g : Grouping) (s : Song) :
    rowStepInfos g (rowOfSong s) = songStepInfos g s := by
  unfold rowStepInfos songStepInfos
  cases h : activeLevels g with
  | nil => rfl
  | cons p rest =>
    simp only [stepInfoForRow_rowOfSong, dividerInfoForRow_rowOfSong]
    rfl

theorem insertNodesRow_rowOfSong (s : Song) (infos : List StepInfo)
    (pfx : List PElem) (ns : List TreeNode) :
    insertNodesRow (rowOfSong s) infos pfx ns = insertNodes s infos pfx ns := by
  induction infos generalizing pfx ns with
  | nil => rfl
  | cons i rest ih =>
    simp only [insertNodesRow, insertNodes]
    exact ih _ _

theorem insertRow_rowOfSong (st : LibState) (s : Song) :
    insertRow st (rowOfSong s) = insertSong st s := by
  unfold insertRow insertSong
  rw [rowStepInfos_rowOfSong, insertNodesRow_rowOfSong]
  rfl

theorem bulkFromRows_map_rowOfSong (g : Grouping) (songs : List Song) :
    bulkFromRows g (songs.map rowOfSong) = bulkFromSongs g songs := by
  unfold bulkFromRows bulkFromSongs insertSongs
  rw [List.foldl_map]
  simp only [insertRow_rowOfSong]

/- ---------------------------------------------------------------------
   Helper lemmas: song-id bookkeeping across operations
   --------------------------------------------------------------------- -/

theorem hasSongId_iff {st : LibState} {i : Nat} :
    hasSongId st i = true ↔ ∃ n ∈ st.nodes, nodeSongId n = some i := by
  unfold hasSongId
  simp [List.any_eq_true]

theorem insertSong_group_by (st : LibState) (s : Song) :
    (insertSong st s).group_by = st.group_by := by
  unfold insertSong
  split <;> rfl

theorem deleteSong_group_by (st : LibState) (i : Nat) :
    (deleteSong st i).group_by = st.group_by := by
  unfold deleteSong
  split <;> rfl

theorem insertSong_nodes_sub (st : LibState) (s : Song) {n : TreeNode}
    (h : n ∈ (insertSong st s).nodes) :
    n ∈ st.nodes ∨ n ∈ newNodes s (songStepInfos st.group_by s) [] := by
  unfold insertSong at h
  split at h
  · exact Or.inl h
  · exact insertNodes_sub _ _ _ _ h

theorem insertSong_nodes_sup (st : LibState) (s : Song) {n : TreeNode}
    (h : n ∈ st.nodes) : n ∈ (insertSong st s).nodes := by
  unfold insertSong
  split
  · exact h
  · exact insertNodes_sup _ _ _ _ h

theorem hasSongId_insertSong (st : LibState) (s : Song) (i : Nat) :
    hasSongId (insertSong st s) i = true ↔
      hasSongId st i = true ∨ i = s.id := by
  constructor
  · intro h
    obtain ⟨n, hn, hid⟩ := hasSongId_iff.mp h
    rcases insertSong_nodes_sub st s hn with hn' | hn'
    · exact Or.inl (hasSongId_iff.mpr ⟨n, hn', hid⟩)
    · rcases newNodes_char s _ _ hn' with rfl | ⟨_, _, i', hi', hlast⟩
      · right
        rw [nodeSongId_eq_some] at hid
        simp only [List.getLast?_concat, Option.some.injEq] at hid
        simp only [PElem.song.injEq] at hid
        omega
      · rw [nodeSongId_eq_some] at hid
        rw [hid] at hlast
        injection hlast with h2
        exact absurd h2.symm (songStepInfos_elem_nonsong st.group_by s i' hi' i)
  · rintro (h | rfl)
    · obtain ⟨n, hn, hid⟩ := hasSongId_iff.mp h
      exact hasSongId_iff.mpr ⟨n, insertSong_nodes_sup st s hn, hid⟩
    · by_cases hpresent : hasSongId st s.id = true
      · unfold insertSong
        rw [if_pos hpresent]
        exact hpresent
      · apply hasSongId_iff.mpr
        have hfull : pathInL (insertSong st s).nodes
            ([] ++ (songStepInfos st.group_by s).map StepInfo.elem ++
              [PElem.song s.id]) := by
          unfold insertSong
          rw [if_neg hpresent]
          exact (insertNodes_pathIn s _ _ _ _).mpr (Or.inr (stepPaths_self _ _ _))
        obtain ⟨n, hn, hp⟩ := hfull
        refine ⟨n, hn, nodeSongId_eq_some.mpr ?_⟩
        rw [hp]
        simp [List.getLast?_concat]

theorem mem_removeSongNodes {ns : List TreeNode} {i : Nat} {n : TreeNode} :
    n ∈ removeSongNodes ns i ↔ n ∈ ns ∧ ¬ nodeSongId n = some i := by
  unfold removeSongNodes
  simp [List.mem_filter]

theorem mem_pruneNodes {ns : List TreeNode} {n : TreeNode} :
    n ∈ pruneNodes ns ↔ n ∈ ns ∧
      (isSongNodeT n = true ∨
        ∃ m ∈ ns, isSongNodeT m = true ∧ strictPfxB n.path m.path = true) := by
  unfold pruneNodes
  simp [List.mem_filter, List.any_eq_true]

theorem mem_pruneNodes_of_song {ns : List TreeNode} {n : TreeNode}
    (hn : n ∈ ns) (hs : isSongNodeT n = true) : n ∈ pruneNodes ns :=
  mem_pruneNodes.mpr ⟨hn, Or.inl hs⟩

theorem deleteSong_nodes_sub (st : LibState) (i : Nat) {n : TreeNode}
    (h : n ∈ (deleteSong st i).nodes) : n ∈ st.nodes := by
  unfold deleteSong at h
  split at h
  · exact (mem_removeSongNodes.mp (mem_pruneNodes.mp h).1).1
  · exact h

theorem hasSongId_deleteSong (st : LibState) (i j : Nat) :
    hasSongId (deleteSong st i) j = true ↔
      hasSongId st j = true ∧ j ≠ i := by
  unfold deleteSong
  split
  · rename_i hpres
    constructor
    · intro h
      obtain ⟨n, hn, hid⟩ := hasSongId_iff.mp h
      obtain ⟨hn1, hni⟩ := mem_removeSongNodes.mp (mem_pruneNodes.mp hn).1
      refine ⟨hasSongId_iff.mpr ⟨n, hn1, hid⟩, ?_⟩
      rintro rfl
      exact hni hid
    · rintro ⟨h, hne⟩
      obtain ⟨n, hn, hid⟩ := hasSongId_iff.mp h
      refine hasSongId_iff.mpr ⟨n, ?_, hid⟩
      apply mem_pruneNodes_of_song
      · exact mem_removeSongNodes.mpr ⟨hn, by simp [hid, hne]⟩
      · exact isSongNodeT_iff.mpr ⟨j, hid⟩
  · rename_i hpres
    constructor
    · intro h
      refine ⟨h, ?_⟩
      rintro rfl
      exact hpres h
    · exact fun h => h.1

theorem occ_deleteSong (st : LibState) (i : Nat) (hocc : Occupied st) :
    Occupied (deleteSong st i) := by
  unfold deleteSong
  split
  · intro n hn hns
    obtain ⟨hn1, hcase⟩ := mem_pruneNodes.mp hn
    rcases hcase with hcase | ⟨m, hm, hms, hspfx⟩
    · exact absurd hcase (by simp [hns])
    · exact ⟨m, mem_pruneNodes_of_song hm hms, hms, hspfx⟩
  · exact hocc

theorem occ_insertSong (st : LibState) (s : Song) (hocc : Occupied st) :
    Occupied (insertSong st s) := by
  unfold insertSong
  split
  · exact hocc
  · intro n hn hns
    have hfull : pathInL (insertNodes s (songStepInfos st.group_by s) [] st.nodes)
        ([] ++ (songStepInfos st.group_by s).map StepInfo.elem ++
          [PElem.song s.id]) :=
      (insertNodes_pathIn s _ _ _ _).mpr (Or.inr (stepPaths_self _ _ _))
    obtain ⟨mfull, hmfull, hpfull⟩ := hfull
    have hmsong : isSongNodeT mfull = true := by
      apply isSongNodeT_iff.mpr
      exact ⟨s.id, nodeSongId_eq_some.mpr (by rw [hpfull]; simp [List.getLast?_concat])⟩
    rcases insertNodes_sub s _ _ _ hn with hn' | hn'
    · obtain ⟨m, hm, hms, hspfx⟩ := hocc n hn' hns
      exact ⟨m, insertNodes_sup s _ _ _ hm, hms, hspfx⟩
    · rcases newNodes_char s _ _ hn' with rfl | ⟨_, hspfx, _, _, _⟩
      · exact absurd hns (by simp [isSongNodeT, nodeSongId, List.getLast?_concat])
      · refine ⟨mfull, hmfull, hmsong, ?_⟩
        rw [hpfull]
        exact hspfx

theorem occ_initState (g : Grouping) : Occupied (initState g) := by
  intro n hn
  simp [initState] at hn

/- ---------------------------------------------------------------------
   Helper lemmas: batch handlers
   --------------------------------------------------------------------- -/

theorem insertSongs_group_by (st : LibState) (l : List Song) :
    (insertSongs st l).group_by = st.group_by := by
  induction l generalizing st with
  | nil => rfl
  | cons s l ih =>
    unfold insertSongs at ih ⊢
    simp only [List.foldl_cons]
    rw [ih, insertSong_group_by]

theorem deleteSongs_group_by (st : LibState) (l : List Song) :
    (deleteSongs st l).group_by = st.group_by := by
  induction l generalizing st with
  | nil => rfl
  | cons s l ih =>
    unfold deleteSongs at ih ⊢
    simp only [List.foldl_cons]
    rw [ih, deleteSong_group_by]

theorem hasSongId_insertSongs (st : LibState) (l : List Song) (i : Nat) :
    hasSongId (insertSongs st l) i = true ↔
      hasSongId st i = true ∨ i ∈ l.map Song.id := by
  induction l generalizing st with
  | nil => simp [insertSongs]
  | cons s l ih =>
    unfold insertSongs at ih ⊢
    simp only [List.foldl_cons, List.map_cons, List.mem_cons]
    rw [ih, hasSongId_insertSong]
    tauto

theorem hasSongId_deleteSongs (st : LibState) (l : List Song) (i : Nat) :
    hasSongId (deleteSongs st l) i = true ↔
      hasSongId st i = true ∧ i ∉ l.map Song.id := by
  induction l generalizing st with
  | nil => simp [deleteSongs]
  | cons s l ih =>
    unfold deleteSongs at ih ⊢
    simp only [List.foldl_cons, List.map_cons, List.mem_cons]
    rw [ih, hasSongId_deleteSong]
    tauto

theorem occ_insertSongs (st : LibState) (l : List Song) (hocc : Occupied st) :
    Occupied (insertSongs st l) := by
  induction l generalizing st with
  | nil => exact hocc
  | cons s l ih =>
    unfold insertSongs at ih ⊢
    simp only [List.foldl_cons]
    exact ih _ (occ_insertSong st s hocc)

theorem occ_deleteSongs (st : LibState) (l : List Song) (hocc : Occupied st) :
    Occupied (deleteSongs st l) := by
  induction l generalizing st with
  | nil => exact hocc
  | cons s l ih =>
    unfold deleteSongs at ih ⊢
    simp only [List.foldl_cons]
    exact ih _ (occ_deleteSong st s.id hocc)

theorem nodes_nil_of_no_songs (st : LibState) (hocc : Occupied st)
    (hno : ∀ j, ¬ hasSongId st j = true) : st.nodes = [] := by
  apply List.eq_nil_iff_forall_not_mem.mpr
  intro n hn
  by_cases hs : isSongNodeT n = true
  · obtain ⟨i, hi⟩ := isSongNodeT_iff.mp hs
    exact hno i (hasSongId_iff.mpr ⟨n, hn, hi⟩)
  · obtain ⟨m, hm, hms, _⟩ := hocc n hn (by simpa using hs)
    obtain ⟨i, hi⟩ := isSongNodeT_iff.mp hms
    exact hno i (hasSongId_iff.mpr ⟨m, hm, hi⟩)

theorem state_eq_init {st : LibState} {g : Grouping}
    (h1 : st.group_by = g) (h2 : st.nodes = []) : st = initState g := by
  cases st with
  | mk gb ns =>
    simp only at h1 h2
    rw [initState, h1, h2]

/- ---------------------------------------------------------------------
   Claim theorems (first group)
   --------------------------------------------------------------------- -/

/-- C1: for any Grouping, inserting a batch of songs into the empty tree
via SongsDiscovered and then deleting the same songs (in any order) via
SongsDeleted returns the index tree to its shape before any insertion:
Root remains with no Container, Divider or SongNode below it, and the
song-id, per-level container and divider lookup maps are empty. -/
theorem c1_delete_reverses_insert (g : Grouping) (ss ds : List Song)
    (hperm : ds.Perm ss) :
    deleteSongs (insertSongs (initState g) ss) ds = initState g ∧
    songNodesMap (deleteSongs (insertSongs (initState g) ss) ds) = [] ∧
    (∀ l, containerKeysAt (deleteSongs (insertSongs (initState g) ss) ds) l = []) ∧
    dividerKeysOf (deleteSongs (insertSongs (initState g) ss) ds) = [] := by
  have hocc : Occupied (deleteSongs (insertSongs (initState g) ss) ds) :=
    occ_deleteSongs _ _ (occ_insertSongs _ _ (occ_initState g))
  have hno : ∀ j,
      ¬ hasSongId (deleteSongs (insertSongs (initState g) ss) ds) j = true := by
    intro j hj
    rw [hasSongId_deleteSongs] at hj
    obtain ⟨hj1, hj2⟩ := hj
    rw [hasSongId_insertSongs] at hj1
    rcases hj1 with hj1 | hj1
    · simp [hasSongId, initState] at hj1
    · exact hj2 ((hperm.map Song.id).mem_iff.mpr hj1)
  have hnil : (deleteSongs (insertSongs (initState g) ss) ds).nodes = [] :=
    nodes_nil_of_no_songs _ hocc hno
  have hst : deleteSongs (insertSongs (initState g) ss) ds = initState g :=
    state_eq_init (by rw [deleteSongs_group_by, insertSongs_group_by]; rfl) hnil
  refine ⟨hst, ?_, ?_, ?_⟩
  · rw [hst]; rfl
  · intro l; rw [hst]; rfl
  · rw [hst]; rfl

/-- C1 witness: a concrete two-song batch inserted then deleted in the
reverse order returns the tree to the empty shape. -/
theorem c1_delete_reverses_insert_witness :
    deleteSongs
        (insertSongs (initState ⟨.GroupBy_Artist, .GroupBy_Album, .GroupBy_None⟩)
          [⟨1, "The Who", "Tommy", "", "", "", "Pinball Wizard", "", 1969, 1, 0, false⟩,
           ⟨2, "Who", "Best", "", "", "", "My Generation", "", 1965, 1, 0, false⟩])
        [⟨2, "Who", "Best", "", "", "", "My Generation", "", 1965, 1, 0, false⟩,
         ⟨1, "The Who", "Tommy", "", "", "", "Pinball Wizard", "", 1969, 1, 0, false⟩] =
      initState ⟨.GroupBy_Artist, .GroupBy_Album, .GroupBy_None⟩ :=
  (c1_delete_reverses_insert ⟨.GroupBy_Artist, .GroupBy_Album, .GroupBy_None⟩
    [⟨1, "The Who", "Tommy", "", "", "", "Pinball Wizard", "", 1969, 1, 0, false⟩,
     ⟨2, "Who", "Best", "", "", "", "My Generation", "", 1965, 1, 0, false⟩]
    [⟨2, "Who", "Best", "", "", "", "My Generation", "", 1965, 1, 0, false⟩,
     ⟨1, "The Who", "Tommy", "", "", "", "Pinball Wizard", "", 1969, 1, 0, false⟩]
    (by decide)).1

/-- C8: processing SongsDeleted for a song id that is not in the song-id
map is a silent no-op: the state — tree and all lookup maps — is exactly
unchanged. -/
theorem c8_delete_missing_noop (st : LibState) (i : Nat)
    (h : ¬ hasSongId st i = true) :
    deleteSong st i = st ∧
    songNodesMap (deleteSong st i) = songNodesMap st ∧
    (∀ l, containerKeysAt (deleteSong st i) l = containerKeysAt st l) ∧
    dividerKeysOf (deleteSong st i) = dividerKeysOf st := by
  have hst : deleteSong st i = st := by
    unfold deleteSong
    rw [if_neg h]
  exact ⟨hst, by rw [hst], fun l => by rw [hst], by rw [hst]⟩

/-- C8 witness: deleting id 5 from a one-song tree that does not index 5
leaves the state unchanged. -/
theorem c8_delete_missing_noop_witness :
    deleteSong
        (insertSong (initState ⟨.GroupBy_Artist, .GroupBy_None, .GroupBy_None⟩)
          ⟨1, "Foo", "", "", "", "", "T", "", 0, 0, 0, false⟩) 5 =
      insertSong (initState ⟨.GroupBy_Artist, .GroupBy_None, .GroupBy_None⟩)
        ⟨1, "Foo", "", "", "", "", "T", "", 0, 0, 0, false⟩ :=
  (c8_delete_missing_noop
    (insertSong (initState ⟨.GroupBy_Artist, .GroupBy_None, .GroupBy_None⟩)
      ⟨1, "Foo", "", "", "", "", "T", "", 0, 0, 0, false⟩) 5 (by decide)).1

/- ---------------------------------------------------------------------
   Helper lemmas: counting SongNodes (duplicate-insert accounting)
   --------------------------------------------------------------------- -/

theorem nodeSongId_nonsong {n : TreeNode} {e : PElem}
    (hl : n.path.getLast? = some e) (he : ∀ j, e ≠ PElem.song j) :
    nodeSongId n = none := by
  unfold nodeSongId
  rw [hl]
  cases e <;> simp_all

theorem ensure_eq_append (ns : List TreeNode) (nd : TreeNode) :
    ∃ e, ensure ns nd = ns ++ e ∧ e.Sublist [nd] := by
  unfold ensure
  split
  · exact ⟨[], by simp, by simp⟩
  · exact ⟨[nd], rfl, List.Sublist.refl _⟩

theorem insertNodes_eq_append (s : Song) (infos : List StepInfo)
    (pfx : List PElem) (ns : List TreeNode) :
    ∃ extra, insertNodes s infos pfx ns = ns ++ extra ∧
      extra.Sublist (newNodes s infos pfx) := by
  induction infos generalizing pfx ns with
  | nil =>
    obtain ⟨e, he, hs⟩ := ensure_eq_append ns
      ⟨pfx ++ [PElem.song s.id], s.title, SortText s.title, some s⟩
    exact ⟨e, he, by simpa [newNodes] using hs⟩
  | cons i rest ih =>
    simp only [insertNodes]
    obtain ⟨e1, he1, hs1⟩ := ensure_eq_append ns
      ⟨pfx ++ [i.elem], i.display, i.sortKey, none⟩
    rw [he1]
    obtain ⟨extra, hex, hsub⟩ := ih (pfx ++ [i.elem]) (ns ++ e1)
    refine ⟨e1 ++ extra, by rw [hex, List.append_assoc], ?_⟩
    have : newNodes s (i :: rest) pfx =
        [⟨pfx ++ [i.elem], i.display, i.sortKey, none⟩] ++
          newNodes s rest (pfx ++ [i.elem]) := by
      simp [newNodes]
    rw [this]
    exact List.Sublist.append hs1 hsub

theorem newNodes_filter_songid (s : Song) (infos : List StepInfo)
    (h : ∀ i ∈ infos, ∀ j, i.elem ≠ PElem.song j) (pfx : List PElem) :
    (newNodes s infos pfx).filter (fun n => decide (nodeSongId n = some s.id)) =
      [⟨pfx ++ infos.map StepInfo.elem ++ [PElem.song s.id], s.title,
        SortText s.title, some s⟩] := by
  induction infos generalizing pfx with
  | nil =>
    have hfin : nodeSongId
        ⟨pfx ++ [PElem.song s.id], s.title, SortText s.title, some s⟩ =
          some s.id := by
      simp [nodeSongId, List.getLast?_concat]
    simp [newNodes, List.filter, hfin]
  | cons i rest ih =>
    have hnd : nodeSongId ⟨pfx ++ [i.elem], i.display, i.sortKey, none⟩ = none :=
      nodeSongId_nonsong (by simp [List.getLast?_concat]) (h i (by simp))
    simp only [newNodes, List.filter_cons, hnd]
    have : (decide ((none : Option Nat) = some s.id)) = false := by simp
    rw [this]
    simp only [Bool.false_eq_true, if_false]
    have ih2 := ih (fun j hj => h j (by simp [hj])) (pfx ++ [i.elem])
    rw [ih2]
    congr 2
    simp

theorem countSongNodes_insertSong_fresh (st : LibState) (s : Song)
    (h : ¬ hasSongId st s.id = true) :
    countSongNodes (insertSong st s) s.id = 1 := by
  have hmem : ∃ n ∈ (insertSong st s).nodes, nodeSongId n = some s.id :=
    hasSongId_iff.mp ((hasSongId_insertSong st s s.id).mpr (Or.inr rfl))
  unfold insertSong at hmem ⊢
  rw [if_neg h] at hmem ⊢
  unfold countSongNodes
  obtain ⟨extra, hex, hsub⟩ :=
    insertNodes_eq_append s (songStepInfos st.group_by s) [] st.nodes
  simp only at hmem ⊢
  rw [hex] at hmem ⊢
  rw [List.filter_append]
  have h1 : st.nodes.filter (fun n => decide (nodeSongId n = some s.id)) = [] := by
    rw [List.filter_eq_nil_iff]
    intro n hn
    simp only [decide_eq_true_eq]
    intro hc
    exact h (hasSongId_iff.mpr ⟨n, hn, hc⟩)
  rw [h1]
  have hfil := List.Sublist.filter (fun n => decide (nodeSongId n = some s.id)) hsub
  rw [newNodes_filter_songid s _ (songStepInfos_elem_nonsong st.group_by s) []] at hfil
  have hne : extra.filter (fun n => decide (nodeSongId n = some s.id)) ≠ [] := by
    obtain ⟨n, hn, hid⟩ := hmem
    rcases List.mem_append.mp hn with hn' | hn'
    · exact absurd (h1 ▸ List.mem_filter.mpr ⟨hn', by simp [hid]⟩) (by simp)
    · intro hc
      have : n ∈ extra.filter (fun n => decide (nodeSongId n = some s.id)) :=
        List.mem_filter.mpr ⟨hn', by simp [hid]⟩
      rw [hc] at this
      simp at this
  rcases List.sublist_singleton.mp hfil with hc | hc
  · exact absurd hc hne
  · rw [hc]
    rfl

theorem insertSong_of_present (st : LibState) (s : Song)
    (h : hasSongId st s.id = true) : insertSong st s = st := by
  unfold insertSong
  rw [if_pos h]

/- ---------------------------------------------------------------------
   Claim C4
   --------------------------------------------------------------------- -/

/-- C4: inserting the same song twice via SongsDiscovered is idempotent —
the second processing leaves the state exactly as after the first, and
(from a state honouring the one-SongNode-per-id invariant) the tree holds
exactly one SongNode for the song's id. -/
theorem c4_insert_idempotent (st : LibState) (s : Song)
    (huniq : countSongNodes st s.id ≤ 1) :
    insertSong (insertSong st s) s = insertSong st s ∧
    countSongNodes (insertSong st s) s.id = 1 ∧
    countSongNodes (insertSong (insertSong st s) s) s.id = 1 := by
  have hidem : insertSong (insertSong st s) s = insertSong st s :=
    insertSong_of_present _ _ ((hasSongId_insertSong st s s.id).mpr (Or.inr rfl))
  have hcount : countSongNodes (insertSong st s) s.id = 1 := by
    by_cases h : hasSongId st s.id = true
    · rw [insertSong_of_present st s h]
      have hpos : 0 < countSongNodes st s.id := by
        obtain ⟨n, hn, hid⟩ := hasSongId_iff.mp h
        unfold countSongNodes
        rw [List.length_pos]
        intro hnil
        have hmem : n ∈ st.nodes.filter (fun n => decide (nodeSongId n = some s.id)) :=
          List.mem_filter.mpr ⟨hn, by simp [hid]⟩
        rw [hnil] at hmem
        simp at hmem
      omega
    · exact countSongNodes_insertSong_fresh st s h
  exact ⟨hidem, hcount, by rw [hidem]; exact hcount⟩

/-- C4 witness: inserting the same concrete song twice into the empty
Artist-grouped tree yields one SongNode and an unchanged second step. -/
theorem c4_insert_idempotent_witness :
    countSongNodes
        (insertSong (initState ⟨.GroupBy_Artist, .GroupBy_None, .GroupBy_None⟩)
          ⟨1, "Foo", "", "", "", "", "T", "", 0, 0, 0, false⟩) 1 = 1 :=
  (c4_insert_idempotent (initState ⟨.GroupBy_Artist, .GroupBy_None, .GroupBy_None⟩)
    ⟨1, "Foo", "", "", "", "", "T", "", 0, 0, 0, false⟩ (by decide)).2.1

theorem newNodes_path_extends (s : Song) (infos : List StepInfo) (pfx : List PElem) :
    ∀ n ∈ newNodes s infos pfx, strictPfxB pfx n.path = true := by
  induction infos generalizing pfx with
  | nil =>
    intro n hn
    simp only [newNodes, List.mem_singleton] at hn
    subst hn
    exact spfx_append _ _ (by simp)
  | cons i rest ih =>
    intro n hn
    simp only [newNodes, List.mem_cons] at hn
    rcases hn with rfl | hn
    · exact spfx_append _ _ (by simp)
    · exact spfx_trans (spfx_append pfx [i.elem] (by simp)) (ih _ n hn)

/- ---------------------------------------------------------------------
   Claim C10
   --------------------------------------------------------------------- -/

/-- C10: the default-constructed Grouping has first, second and third all
equal to GroupBy_None (library.h line 65), so a freshly constructed
Library has a fully flat active grouping: a discovered song maps to no
grouping level at all and becomes a SongNode directly under Root. -/
theorem c10_default_grouping_flat (s : Song) :
    defaultGrouping.first = GroupBy.GroupBy_None ∧
    defaultGrouping.second = GroupBy.GroupBy_None ∧
    defaultGrouping.third = GroupBy.GroupBy_None ∧
    songStepInfos defaultGrouping s = [] ∧
    (insertSong (initState defaultGrouping) s).nodes =
      [⟨[PElem.song s.id], s.title, SortText s.title, some s⟩] := by
  refine ⟨rfl, rfl, rfl, rfl, ?_⟩
  unfold insertSong
  rw [if_neg (by simp [hasSongId, initState])]
  rfl

/- ---------------------------------------------------------------------
   Claim C7
   --------------------------------------------------------------------- -/

/-- C7: a song whose artist field is empty, under first-level Artist
grouping and not compilation-flagged, is not dropped: it is indexed, the
level-0 Container it is filed under carries the synthetic "unknown" key
and the fixed display label "Unknown" (never the empty string), and the
song's SongNode descends from that Container. -/
theorem c7_unknown_bucketing (st : LibState) (s : Song)
    (hfirst : st.group_by.first = GroupBy.GroupBy_Artist)
    (hart : s.artist = "") (hcomp : s.compilation = false)
    (hfresh : ¬ hasSongId st s.id = true)
    (hnew : ¬ pathIn st [PElem.div "other", PElem.cont 0 "unknown"]) :
    hasSongId (insertSong st s) s.id = true ∧
    ∃ c ∈ (insertSong st s).nodes,
      c.path = [PElem.div "other", PElem.cont 0 "unknown"] ∧
      c.display = "Unknown" ∧ ¬ c.display = "" ∧
      ∃ m ∈ (insertSong st s).nodes, nodeSongId m = some s.id ∧
        strictPfxB c.path m.path = true := by
  have hsent : SortTextForArtist s.artist = "~unknown~" := by
    rw [hart]
    decide
  have hdiv : dividerInfoFor GroupBy.GroupBy_Artist s =
      [⟨PElem.div "other", "Other", "other"⟩] := by
    simp only [dividerInfoFor, DividerKeyFor]
    rw [hsent]
    decide
  have hstep : stepInfoFor GroupBy.GroupBy_Artist 0 s =
      ⟨PElem.cont 0 "unknown", "Unknown", "~unknown~"⟩ := by
    unfold stepInfoFor
    rw [hsent, hart]
    rfl
  obtain ⟨rest, hact⟩ : ∃ rest, activeLevels st.group_by =
      (0, GroupBy.GroupBy_Artist) :: rest := by
    refine ⟨(if st.group_by.second = GroupBy.GroupBy_None then []
      else (1, st.group_by.second) ::
        (if st.group_by.third = GroupBy.GroupBy_None then []
         else [(2, st.group_by.third)])), ?_⟩
    unfold activeLevels
    rw [hfirst]
    rw [if_neg (by simp)]
  have hinfos : songStepInfos st.group_by s =
      ⟨PElem.div "other", "Other", "other"⟩ ::
        ⟨PElem.cont 0 "unknown", "Unknown", "~unknown~"⟩ ::
          rest.map (fun p => stepInfoFor p.2 p.1 s) := by
    simp only [songStepInfos, hact]
    rw [if_neg (by simp [hcomp]), hdiv, hstep]
    rfl
  have hins : (insertSong st s).nodes =
      insertNodes s (songStepInfos st.group_by s) [] st.nodes := by
    unfold insertSong
    rw [if_neg hfresh]
  refine ⟨(hasSongId_insertSong st s s.id).mpr (Or.inr rfl), ?_⟩
  have hp2 : pathInL (insertSong st s).nodes
      [PElem.div "other", PElem.cont 0 "unknown"] := by
    rw [hins]
    apply (insertNodes_pathIn s _ [] st.nodes _).mpr
    right
    rw [hinfos]
    simp [stepPaths]
  obtain ⟨c, hc, hcp⟩ := hp2
  have hcnew : c ∈ newNodes s (songStepInfos st.group_by s) [] := by
    rcases insertSong_nodes_sub st s hc with hold | hnewm
    · exact absurd ⟨c, hold, hcp⟩ hnew
    · exact hnewm
  have hcdisp : c = ⟨[PElem.div "other", PElem.cont 0 "unknown"], "Unknown",
      "~unknown~", none⟩ := by
    rw [hinfos] at hcnew
    simp only [newNodes, List.mem_cons] at hcnew
    rcases hcnew with rfl | hcnew
    · exact absurd hcp (by simp)
    · rcases hcnew with rfl | hcnew
      · simp only at hcp ⊢
        rfl
      · have := newNodes_path_extends s _ _ c hcnew
        have hlen := spfx_length this
        rw [hcp] at hlen
        simp at hlen
  have hmfull : ∃ m ∈ (insertSong st s).nodes,
      m.path = [] ++ (songStepInfos st.group_by s).map StepInfo.elem ++
        [PElem.song s.id] := by
    rw [hins]
    exact (insertNodes_pathIn s _ [] st.nodes _).mpr
      (Or.inr (stepPaths_self _ _ _))
  obtain ⟨m, hm, hmp⟩ := hmfull
  refine ⟨c, hc, by rw [hcdisp], by rw [hcdisp], by rw [hcdisp]; simp, m, hm, ?_, ?_⟩
  · exact nodeSongId_eq_some.mpr (by rw [hmp]; simp [List.getLast?_concat])
  · rw [hcdisp, hmp, hinfos]
    simp only [List.map_cons, List.nil_append, List.cons_append]
    exact spfx_cons₂ (spfx_cons₂ (spfx_nil_left (by simp)))

/-- C7 witness: the concrete empty-artist song under Artist grouping. -/
theorem c7_unknown_bucketing_witness :
    hasSongId
      (insertSong (initState ⟨.GroupBy_Artist, .GroupBy_None, .GroupBy_None⟩)
        ⟨7, "", "", "", "", "", "T", "", 0, 0, 0, false⟩) 7 = true :=
  (c7_unknown_bucketing
    (initState ⟨.GroupBy_Artist, .GroupBy_None, .GroupBy_None⟩)
    ⟨7, "", "", "", "", "", "T", "", 0, 0, 0, false⟩
    rfl rfl rfl (by decide) (by simp [pathIn, pathInL, initState])).1

theorem activeLevels_artist (g : Grouping)
    (h : g.first = GroupBy.GroupBy_Artist) :
    activeLevels g = (0, GroupBy.GroupBy_Artist) ::
      (if g.second = GroupBy.GroupBy_None then []
       else (1, g.second) ::
         (if g.third = GroupBy.GroupBy_None then [] else [(2, g.third)])) := by
  unfold activeLevels
  rw [h]
  rw [if_neg (by simp)]

/- ---------------------------------------------------------------------
   Claim C5
   --------------------------------------------------------------------- -/

/-- C5: with the first grouping level Artist, a compilation-flagged song
routes under the single CompilationArtistNode (created if absent — exactly
one such node exists afterwards): its SongNode sits below the node at path
[comp], and every SongNode wrapping its id starts with the compilation
node, never with a per-artist level-0 Container. -/
theorem c5_compilation_routing (st : LibState) (s : Song)
    (hfirst : st.group_by.first = GroupBy.GroupBy_Artist)
    (hcomp : s.compilation = true)
    (hfresh : ¬ hasSongId st s.id = true)
    (hcc : compNodeCount st ≤ 1) :
    compNodeCount (insertSong st s) = 1 ∧
    (∃ m ∈ (insertSong st s).nodes, nodeSongId m = some s.id ∧
        m.path.head? = some PElem.comp) ∧
    (∀ m ∈ (insertSong st s).nodes, nodeSongId m = some s.id →
        m.path.head? = some PElem.comp) := by
  obtain ⟨rest, hact⟩ : ∃ rest, activeLevels st.group_by =
      (0, GroupBy.GroupBy_Artist) :: rest := ⟨_, activeLevels_artist _ hfirst⟩
  have hinfos : songStepInfos st.group_by s =
      compStepInfo :: rest.map (fun p => stepInfoFor p.2 p.1 s) := by
    simp only [songStepInfos, hact]
    rw [if_pos]
    exact ⟨trivial, hcomp⟩
  have hins : (insertSong st s).nodes =
      insertNodes s (songStepInfos st.group_by s) [] st.nodes := by
    unfold insertSong
    rw [if_neg hfresh]
  have hcount : compNodeCount (insertSong st s) = 1 := by
    unfold compNodeCount
    rw [hins, hinfos]
    simp only [insertNodes, compStepInfo, List.nil_append]
    obtain ⟨extra, hex, hsub⟩ := insertNodes_eq_append s
      (rest.map (fun p => stepInfoFor p.2 p.1 s)) [PElem.comp]
      (ensure st.nodes ⟨[PElem.comp], "Various Artists", " various", none⟩)
    rw [hex, List.filter_append]
    have hextra : extra.filter (fun n => decide (n.path = [PElem.comp])) = [] := by
      rw [List.filter_eq_nil_iff]
      intro n hn
      have hext := newNodes_path_extends s _ _ n (hsub.subset hn)
      have hlen := spfx_length hext
      simp only [decide_eq_true_eq]
      intro hc
      rw [hc] at hlen
      simp at hlen
    rw [hextra, List.append_nil]
    unfold ensure
    split
    · rename_i hany
      simp only [List.any_eq_true, decide_eq_true_eq] at hany
      obtain ⟨n, hn, hnp⟩ := hany
      have hpos :
          0 < (st.nodes.filter (fun n => decide (n.path = [PElem.comp]))).length := by
        rw [List.length_pos]
        intro hnil
        have hmem : n ∈ st.nodes.filter (fun n => decide (n.path = [PElem.comp])) :=
          List.mem_filter.mpr ⟨hn, by simp [hnp]⟩
        rw [hnil] at hmem
        simp at hmem
      unfold compNodeCount at hcc
      omega
    · rename_i hany
      rw [List.filter_append]
      have h0 : st.nodes.filter (fun n => decide (n.path = [PElem.comp])) = [] := by
        rw [List.filter_eq_nil_iff]
        intro n hn
        simp only [decide_eq_true_eq]
        intro hc
        exact hany (List.any_eq_true.mpr ⟨n, hn, by simp [hc]⟩)
      rw [h0]
      simp
  have hmfull : ∃ m ∈ (insertSong st s).nodes,
      m.path = [] ++ (songStepInfos st.group_by s).map StepInfo.elem ++
        [PElem.song s.id] := by
    rw [hins]
    exact (insertNodes_pathIn s _ [] st.nodes _).mpr
      (Or.inr (stepPaths_self _ _ _))
  obtain ⟨m, hm, hmp⟩ := hmfull
  have hmid : nodeSongId m = some s.id :=
    nodeSongId_eq_some.mpr (by rw [hmp]; simp [List.getLast?_concat])
  have hmhead : m.path.head? = some PElem.comp := by
    rw [hmp, hinfos]
    simp [compStepInfo]
  refine ⟨hcount, ⟨m, hm, hmid, hmhead⟩, ?_⟩
  intro m' hm' hid'
  rcases insertSong_nodes_sub st s hm' with hold | hnewm
  · exact absurd (hasSongId_iff.mpr ⟨m', hold, hid'⟩) hfresh
  · rcases newNodes_char s _ _ hnewm with rfl | ⟨_, _, i', hi', hlast⟩
    · rw [hinfos]
      simp [compStepInfo]
    · rw [nodeSongId_eq_some] at hid'
      rw [hid'] at hlast
      injection hlast with h2
      exact absurd h2.symm
        (songStepInfos_elem_nonsong st.group_by s i' hi' s.id)

/-- C5 witness: the concrete compilation song under Artist grouping. -/
theorem c5_compilation_routing_witness :
    compNodeCount
        (insertSong (initState ⟨.GroupBy_Artist, .GroupBy_None, .GroupBy_None⟩)
          ⟨7, "Foo", "", "", "", "", "T", "", 0, 0, 0, true⟩) = 1 :=
  (c5_compilation_routing
    (initState ⟨.GroupBy_Artist, .GroupBy_None, .GroupBy_None⟩)
    ⟨7, "Foo", "", "", "", "", "T", "", 0, 0, 0, true⟩
    rfl rfl (by decide) (by decide)).1

/- ---------------------------------------------------------------------
   Helper lemmas: the artist sort key and article stripping
   --------------------------------------------------------------------- -/

theorem squeeze_cons_nonspace {c : Char} (x : List Char) (hc : ¬ c = ' ') :
    squeeze (c :: x) = c :: squeeze x := by
  simp [squeeze, hc]

theorem squeeze_append_nonspace (w x : List Char)
    (hw : ∀ c ∈ w, ¬ c = ' ') :
    squeeze (w ++ x) = w ++ squeeze x := by
  induction w with
  | nil => rfl
  | cons c cs ih =>
    rw [List.cons_append, squeeze_cons_nonspace _ (hw c (by simp)),
      ih (fun d hd => hw d (by simp [hd])), List.cons_append]

theorem squeeze_space (x : List Char) :
    squeeze (' ' :: x) =
      match squeeze x with
      | [] => []
      | d :: r => if d = ' ' then d :: r else ' ' :: d :: r := by
  simp [squeeze]

theorem squeeze_space_head (x : List Char) :
    squeeze (' ' :: x) = [] ∨ ∃ r, squeeze (' ' :: x) = ' ' :: r := by
  rw [squeeze_space]
  cases h : squeeze x with
  | nil => exact Or.inl rfl
  | cons d r =>
    right
    by_cases hd : d = ' '
    · exact ⟨r, by simp [hd]⟩
    · exact ⟨d :: r, by simp [hd]⟩

theorem squeeze_space_space (x : List Char) :
    squeeze (' ' :: ' ' :: x) = squeeze (' ' :: x) := by
  rw [squeeze_space (' ' :: x)]
  rcases squeeze_space_head x with h | ⟨r, h⟩
  · rw [h]
  · rw [h]
    simp

theorem squeeze_space_dropWhile (x : List Char) :
    squeeze (' ' :: x) =
      squeeze (' ' :: x.dropWhile (fun c => c = ' ')) := by
  induction x with
  | nil => rfl
  | cons a x ih =>
    by_cases ha : a = ' '
    · subst ha
      rw [squeeze_space_space, ih, List.dropWhile_cons_of_pos (by decide)]
    · rw [List.dropWhile_cons_of_neg (by simpa using ha)]

theorem dropWhile_space_head {x : List Char} {c : Char} {r : List Char}
    (h : x.dropWhile (fun c => c = ' ') = c :: r) : ¬ c = ' ' := by
  induction x with
  | nil => simp at h
  | cons a t ih =>
    by_cases ha : a = ' '
    · rw [List.dropWhile_cons_of_pos (by simp [ha])] at h
      exact ih h
    · rw [List.dropWhile_cons_of_neg (by simpa using ha)] at h
      injection h with h1 h2
      subst h1
      exact ha

theorem squeeze_space_of_sortTail {x : List Char}
    (hne : ¬ squeeze (x.dropWhile (fun c => c = ' ')) = []) :
    squeeze (' ' :: x) =
      ' ' :: squeeze (x.dropWhile (fun c => c = ' ')) := by
  rw [squeeze_space_dropWhile]
  cases hZ : x.dropWhile (fun c => c = ' ') with
  | nil =>
    rw [hZ] at hne
    exact absurd rfl hne
  | cons c r =>
    have hc := dropWhile_space_head hZ
    rw [squeeze_space, squeeze_cons_nonspace r hc]
    simp [hc]

theorem sortChars_article_chain (w : List Char) (x : List Char)
    (hw0 : w ≠ [])
    (hw : ∀ c ∈ w, ¬ c = ' ' ∧ Char.toLower c = c ∧ keepChar c = true)
    (hne : ¬ sortChars x = []) :
    sortChars (w ++ ' ' :: x) = w ++ ' ' :: sortChars x := by
  unfold sortChars at hne ⊢
  rw [List.map_append, List.filter_append]
  have h1 : w.map Char.toLower = w := by
    have hcongr := List.map_congr_left
      (l := w) (f := Char.toLower) (g := id) (fun c hc => (hw c hc).2.1)
    simpa using hcongr
  have h2 : w.filter keepChar = w :=
    List.filter_eq_self.mpr (fun c hc => (hw c hc).2.2)
  rw [h1, h2]
  rw [List.map_cons, show Char.toLower ' ' = ' ' from rfl, List.filter_cons,
    if_pos (by decide)]
  cases w with
  | nil => exact absurd rfl hw0
  | cons c w' =>
    have hc : ¬ c = ' ' := (hw c (by simp)).1
    rw [List.cons_append, List.dropWhile_cons_of_neg (by simpa using hc)]
    rw [show c :: (w' ++ ' ' :: (x.map Char.toLower).filter keepChar) =
      (c :: w') ++ (' ' :: (x.map Char.toLower).filter keepChar) from rfl]
    rw [squeeze_append_nonspace (c :: w') _ (fun d hd => (hw d hd).1)]
    rw [squeeze_space_of_sortTail hne]

theorem stripArticleChars_of_not_article {k : List Char}
    (h : articleStart k = false) : stripArticleChars k = k := by
  unfold stripArticleChars
  split
  · simp [articleStart] at h
  · simp [articleStart] at h
  · simp [articleStart] at h
  · rfl

/- ---------------------------------------------------------------------
   Claim C9 (counterexample and amended statement)
   --------------------------------------------------------------------- -/

/-- C9 counterexample: SortTextForArtist strips only ONE leading article,
so prefixing an artist string that itself begins with an article does NOT
leave the sort key unchanged: "a " ++ "The Cure" keys as "the cure" while
"The Cure" keys as "cure".  The claim's universally quantified sentence
("for every artist string, prefixing it with such an article yields the
same sort key") is therefore false as stated. -/
theorem c9_counterexample :
    ¬ SortTextForArtist ("a " ++ "The Cure") = SortTextForArtist "The Cure" := by
  decide

/-- C9 (amended): SortTextForArtist strips a fixed set of leading articles
("the", "a", "an") after normalisation; for every artist string whose
normalised sort text is nonempty and does not itself begin with one of the
articles, prefixing the artist with an article yields the same sort key;
in particular SortTextForArtist "The Who" = SortTextForArtist "Who" = the
normalised key "who", so the two artists sort adjacently. -/
theorem c9_artist_article_stripping (s : String) (a : String)
    (ha : a = "the " ∨ a = "a " ∨ a = "an ")
    (hne : ¬ sortChars s.toList = [])
    (hart : articleStart (sortChars s.toList) = false) :
    SortTextForArtist (a ++ s) = SortTextForArtist s ∧
    SortTextForArtist "The Who" = "who" ∧
    SortTextForArtist "Who" = "who" := by
  refine ⟨?_, by decide, by decide⟩
  have hrhs : SortTextForArtist s = String.mk (sortChars s.toList) := by
    simp only [SortTextForArtist]
    rw [if_neg hne, stripArticleChars_of_not_article hart]
  rcases ha with rfl | rfl | rfl
  · have hchain := sortChars_article_chain ['t', 'h', 'e'] s.toList
      (by simp) (by decide) hne
    have hlhs : SortTextForArtist ("the " ++ s) =
        String.mk (sortChars s.toList) := by
      simp only [SortTextForArtist]
      rw [show ("the " ++ s).toList =
        ['t', 'h', 'e'] ++ ' ' :: s.toList from rfl]
      rw [hchain, if_neg (by simp)]
      rw [show stripArticleChars
        (['t', 'h', 'e'] ++ ' ' :: sortChars s.toList) =
          sortChars s.toList from rfl]
    rw [hlhs, hrhs]
  · have hchain := sortChars_article_chain ['a'] s.toList
      (by simp) (by decide) hne
    have hlhs : SortTextForArtist ("a " ++ s) =
        String.mk (sortChars s.toList) := by
      simp only [SortTextForArtist]
      rw [show ("a " ++ s).toList = ['a'] ++ ' ' :: s.toList from rfl]
      rw [hchain, if_neg (by simp)]
      rw [show stripArticleChars (['a'] ++ ' ' :: sortChars s.toList) =
        sortChars s.toList from rfl]
    rw [hlhs, hrhs]
  · have hchain := sortChars_article_chain ['a', 'n'] s.toList
      (by simp) (by decide) hne
    have hlhs : SortTextForArtist ("an " ++ s) =
        String.mk (sortChars s.toList) := by
      simp only [SortTextForArtist]
      rw [show ("an " ++ s).toList = ['a', 'n'] ++ ' ' :: s.toList from rfl]
      rw [hchain, if_neg (by simp)]
      rw [show stripArticleChars (['a', 'n'] ++ ' ' :: sortChars s.toList) =
        sortChars s.toList from rfl]
    rw [hlhs, hrhs]

/-- C9 witness: prefixing "Who" with "the " leaves the key "who". -/
theorem c9_artist_article_stripping_witness :
    SortTextForArtist ("the " ++ "Who") = SortTextForArtist "Who" :=
  (c9_artist_article_stripping "Who" "the " (Or.inl rfl)
    (by decide) (by decide)).1

/- ---------------------------------------------------------------------
   Claim C2
   --------------------------------------------------------------------- -/

/-- C2: ItemFromQuery agrees field-for-field with ItemFromSong on the same
underlying data — the per-level key/display/sort data read from the
backend's row of a song equals the data computed from the song itself, a
row round-trips to its song — and bulk population driven by the backend's
rows for a song set produces exactly the same tree state as driving
ItemFromSong with the songs directly, hence an isomorphic tree (the same
key paths, i.e. same keys and same nesting). -/
theorem c2_query_song_equivalence (g : Grouping) (s : Song) (ss : List Song) :
    rowStepInfos g (rowOfSong s) = songStepInfos g s ∧
    songOfRow (rowOfSong s) = s ∧
    bulkFromRows g (ss.map rowOfSong) = bulkFromSongs g ss ∧
    TreeIso (bulkFromRows g (ss.map rowOfSong)) (bulkFromSongs g ss) := by
  refine ⟨rowStepInfos_rowOfSong g s, songOfRow_rowOfSong s,
    bulkFromRows_map_rowOfSong g ss, ?_⟩
  rw [bulkFromRows_map_rowOfSong]
  exact fun p => Iff.rfl

/- ---------------------------------------------------------------------
   Helper lemmas: key-path sets of a bulk rebuild
   --------------------------------------------------------------------- -/

theorem insertRow_eq_insertSong (st : LibState) (r : QueryRow) :
    insertRow st r = insertSong st (songOfRow r) :=
  insertRow_rowOfSong st (songOfRow r)

theorem bulkRebuild_eq (g : Grouping) (opts : QueryOptions) (ss : List Song) :
    bulkRebuild g opts ss =
      insertSongs (initState g) (ss.filter (matchesFilter opts)) := by
  unfold bulkRebuild
  rw [bulkFromRows_map_rowOfSong]
  rfl

theorem pathIn_insertSong_fresh (st : LibState) (s : Song)
    (h : ¬ hasSongId st s.id = true) (p : List PElem) :
    pathIn (insertSong st s) p ↔
      pathIn st p ∨ p ∈ stepPaths s.id (songStepInfos st.group_by s) [] := by
  unfold insertSong pathIn
  rw [if_neg h]
  exact insertNodes_pathIn s _ [] st.nodes p

theorem pathIn_insertSongs (st : LibState) (l : List Song)
    (hnd : (l.map Song.id).Nodup)
    (hdisj : ∀ s ∈ l, ¬ hasSongId st s.id = true) (p : List PElem) :
    pathIn (insertSongs st l) p ↔
      pathIn st p ∨
        ∃ s ∈ l, p ∈ stepPaths s.id (songStepInfos st.group_by s) [] := by
  induction l generalizing st with
  | nil => simp [insertSongs, pathIn]
  | cons s l ih =>
    unfold insertSongs at ih ⊢
    simp only [List.foldl_cons]
    simp only [List.map_cons, List.nodup_cons] at hnd
    have hfresh : ¬ hasSongId st s.id = true := hdisj s (by simp)
    have hdisj' : ∀ t ∈ l, ¬ hasSongId (insertSong st s) t.id = true := by
      intro t ht hc
      rcases (hasSongId_insertSong st s t.id).mp hc with hc' | hc'
      · exact hdisj t (by simp [ht]) hc'
      · exact hnd.1 (hc' ▸ List.mem_map.mpr ⟨t, ht, rfl⟩)
    rw [ih (insertSong st s) hnd.2 hdisj']
    rw [pathIn_insertSong_fresh st s hfresh]
    rw [insertSong_group_by]
    simp only [List.mem_cons]
    constructor
    · rintro ((hp | hp) | ⟨t, ht, hp⟩)
      · exact Or.inl hp
      · exact Or.inr ⟨s, Or.inl rfl, hp⟩
      · exact Or.inr ⟨t, Or.inr ht, hp⟩
    · rintro (hp | ⟨t, rfl | ht, hp⟩)
      · exact Or.inl (Or.inl hp)
      · exact Or.inl (Or.inr hp)
      · exact Or.inr ⟨t, ht, hp⟩

theorem pathIn_bulkRebuild (g : Grouping) (opts : QueryOptions)
    (ss : List Song) (hnd : (ss.map Song.id).Nodup) (p : List PElem) :
    pathIn (bulkRebuild g opts ss) p ↔
      ∃ s ∈ ss.filter (matchesFilter opts),
        p ∈ stepPaths s.id (songStepInfos g s) [] := by
  rw [bulkRebuild_eq]
  have hfil : ((ss.filter (matchesFilter opts)).map Song.id).Nodup :=
    hnd.sublist (List.Sublist.map Song.id (List.filter_sublist ss))
  rw [pathIn_insertSongs (initState g) _ hfil
    (fun s _ => by simp [hasSongId, initState]) p]
  simp [pathIn, pathInL, initState]

/- ---------------------------------------------------------------------
   Claim C6
   --------------------------------------------------------------------- -/

/-- C6: a bulk rebuild is deterministic up to node identity: rebuilt from
the same Grouping, the same active filter and the same song set (given as
any two orderings of one duplicate-free batch), the resulting trees are
isomorphic — they realise exactly the same key paths (same keys at every
level, same nesting). -/
theorem c6_bulk_rebuild_deterministic (g : Grouping) (opts : QueryOptions)
    (ss₁ ss₂ : List Song) (hperm : ss₁.Perm ss₂)
    (hnd : (ss₁.map Song.id).Nodup) :
    TreeIso (bulkRebuild g opts ss₁) (bulkRebuild g opts ss₂) := by
  have hnd₂ : (ss₂.map Song.id).Nodup := (hperm.map Song.id).nodup hnd
  intro p
  rw [pathIn_bulkRebuild g opts ss₁ hnd p, pathIn_bulkRebuild g opts ss₂ hnd₂ p]
  constructor
  · rintro ⟨s, hs, hp⟩
    exact ⟨s, (hperm.filter (matchesFilter opts)).mem_iff.mp hs, hp⟩
  · rintro ⟨s, hs, hp⟩
    exact ⟨s, (hperm.filter (matchesFilter opts)).mem_iff.mpr hs, hp⟩

/-- C6 witness: two orderings of a concrete two-song set rebuild to
isomorphic trees. -/
theorem c6_bulk_rebuild_deterministic_witness :
    TreeIso
      (bulkRebuild ⟨.GroupBy_Artist, .GroupBy_Album, .GroupBy_None⟩ ⟨"", 0⟩
        [⟨1, "The Who", "Tommy", "", "", "", "Pinball Wizard", "", 1969, 1, 5, false⟩,
         ⟨2, "Who", "Best", "", "", "", "My Generation", "", 1965, 1, 5, false⟩])
      (bulkRebuild ⟨.GroupBy_Artist, .GroupBy_Album, .GroupBy_None⟩ ⟨"", 0⟩
        [⟨2, "Who", "Best", "", "", "", "My Generation", "", 1965, 1, 5, false⟩,
         ⟨1, "The Who", "Tommy", "", "", "", "Pinball Wizard", "", 1969, 1, 5, false⟩]) :=
  c6_bulk_rebuild_deterministic ⟨.GroupBy_Artist, .GroupBy_Album, .GroupBy_None⟩
    ⟨"", 0⟩
    [⟨1, "The Who", "Tommy", "", "", "", "Pinball Wizard", "", 1969, 1, 5, false⟩,
     ⟨2, "Who", "Best", "", "", "", "My Generation", "", 1965, 1, 5, false⟩]
    [⟨2, "Who", "Best", "", "", "", "My Generation", "", 1965, 1, 5, false⟩,
     ⟨1, "The Who", "Tommy", "", "", "", "Pinball Wizard", "", 1969, 1, 5, false⟩]
    (by decide) (by decide)

/- ---------------------------------------------------------------------
   Helper lemmas: ancestor closure and coherence across operations
   --------------------------------------------------------------------- -/

theorem insertNodes_closure (s : Song) (infos : List StepInfo) (pfx : List PElem)
    (ns : List TreeNode)
    (hns : ∀ n ∈ ns, ∀ q, q ≠ [] → strictPfxB q n.path = true → pathInL ns q)
    (hpfx1 : ∀ q, q ≠ [] → strictPfxB q pfx = true → pathInL ns q)
    (hpfx2 : pfx ≠ [] → pathInL ns pfx) :
    ∀ n ∈ insertNodes s infos pfx ns, ∀ q, q ≠ [] →
      strictPfxB q n.path = true → pathInL (insertNodes s infos pfx ns) q := by
  induction infos generalizing pfx ns with
  | nil =>
    intro n hn q hq hspfx
    rcases mem_of_mem_ensure hn with hn' | rfl
    · obtain ⟨a, ha, hap⟩ := hns n hn' q hq hspfx
      exact ⟨a, mem_ensure_of_mem ha, hap⟩
    · rcases (spfx_snoc_iff q pfx _).mp hspfx with rfl | hq2
      · obtain ⟨a, ha, hap⟩ := hpfx2 hq
        exact ⟨a, mem_ensure_of_mem ha, hap⟩
      · obtain ⟨a, ha, hap⟩ := hpfx1 q hq hq2
        exact ⟨a, mem_ensure_of_mem ha, hap⟩
  | cons i rest ih =>
    intro n hn q hq hspfx
    simp only [insertNodes] at hn ⊢
    refine ih (pfx ++ [i.elem])
      (ensure ns ⟨pfx ++ [i.elem], i.display, i.sortKey, none⟩)
      ?_ ?_ ?_ n hn q hq hspfx
    · intro a ha r hr hra
      rcases mem_of_mem_ensure ha with ha' | rfl
      · obtain ⟨b, hb, hbp⟩ := hns a ha' r hr hra
        exact ⟨b, mem_ensure_of_mem hb, hbp⟩
      · rcases (spfx_snoc_iff r pfx _).mp hra with rfl | hr2
        · obtain ⟨b, hb, hbp⟩ := hpfx2 hr
          exact ⟨b, mem_ensure_of_mem hb, hbp⟩
        · obtain ⟨b, hb, hbp⟩ := hpfx1 r hr hr2
          exact ⟨b, mem_ensure_of_mem hb, hbp⟩
    · intro r hr hra
      rcases (spfx_snoc_iff r pfx _).mp hra with rfl | hr2
      · obtain ⟨b, hb, hbp⟩ := hpfx2 hr
        exact ⟨b, mem_ensure_of_mem hb, hbp⟩
      · obtain ⟨b, hb, hbp⟩ := hpfx1 r hr hr2
        exact ⟨b, mem_ensure_of_mem hb, hbp⟩
    · intro _
      exact pathInL_ensure.mpr (Or.inr rfl)

theorem closure_insertSong (st : LibState) (s : Song)
    (hc : AncestorsClosed st) : AncestorsClosed (insertSong st s) := by
  unfold insertSong
  split
  · exact hc
  · intro n hn q hq hspfx
    refine insertNodes_closure s _ [] st.nodes hc ?_ ?_ n hn q hq hspfx
    · intro r _ hra
      rw [spfx_nil_right] at hra
      exact absurd hra (by simp)
    · intro h
      exact absurd rfl h

theorem mem_of_middle (xs : List PElem) (z : PElem) (q' : List PElem)
    (e : PElem) (r : List PElem) (h : xs ++ [z] = q' ++ e :: r)
    (hr : r ≠ []) : e ∈ xs := by
  induction q' generalizing xs with
  | nil =>
    simp only [List.nil_append] at h
    cases xs with
    | nil =>
      simp only [List.nil_append] at h
      injection h with h1 h2
      exact absurd h2.symm hr
    | cons x xs' =>
      rw [List.cons_append] at h
      injection h with h1 h2
      subst h1
      exact List.mem_cons_self x xs'
  | cons a q'' ih =>
    cases xs with
    | nil =>
      simp only [List.nil_append] at h
      injection h with h1 h2
      exact absurd h2.symm (by simp)
    | cons x xs' =>
      rw [List.cons_append, List.cons_append] at h
      injection h with h1 h2
      exact List.mem_cons_of_mem x (ih xs' h2)

theorem spfx_full_last_nonsong {g : Grouping} {s : Song} {q : List PElem}
    (h : strictPfxB q (fullPathOf g s) = true) (hq : q ≠ []) :
    ∃ e, q.getLast? = some e ∧ ∀ j, e ≠ PElem.song j := by
  obtain ⟨r, hr, hfull⟩ := spfx_exists h
  rcases List.eq_nil_or_concat q with rfl | ⟨q', e, rfl⟩
  · exact absurd rfl hq
  · rw [List.concat_eq_append] at hfull ⊢
    refine ⟨e, by simp [List.getLast?_concat], ?_⟩
    unfold fullPathOf at hfull
    rw [List.append_assoc] at hfull
    have hmem : e ∈ (songStepInfos g s).map StepInfo.elem :=
      mem_of_middle _ _ q' e r (by simpa using hfull) hr
    obtain ⟨i, hi, rfl⟩ := List.mem_map.mp hmem
    exact songStepInfos_elem_nonsong g s i hi

theorem closure_deleteSong (st : LibState) (i : Nat)
    (hc : AncestorsClosed st) (hco : Coherent st) :
    AncestorsClosed (deleteSong st i) := by
  unfold deleteSong
  split
  · intro n hn q hq hspfx
    obtain ⟨hn1, hcase⟩ := mem_pruneNodes.mp hn
    obtain ⟨m, hmRem, hmSong, hmSp⟩ : ∃ m ∈ removeSongNodes st.nodes i,
        isSongNodeT m = true ∧ strictPfxB q m.path = true := by
      rcases hcase with hsong | ⟨m, hm, hms, hsp⟩
      · exact ⟨n, hn1, hsong, hspfx⟩
      · exact ⟨m, hm, hms, spfx_trans hspfx hsp⟩
    obtain ⟨j, hj⟩ := isSongNodeT_iff.mp hmSong
    have hm0 : m ∈ st.nodes := (mem_removeSongNodes.mp hmRem).1
    obtain ⟨sm, _, _, hsm3⟩ := hco m hm0 j (nodeSongId_eq_some.mp hj)
    have hqf : strictPfxB q (fullPathOf st.group_by sm) = true := by
      rw [← hsm3]
      exact hmSp
    obtain ⟨e, he, hens⟩ := spfx_full_last_nonsong hqf hq
    obtain ⟨a, ha, hap⟩ := hc m hm0 q hq hmSp
    have hansid : nodeSongId a = none :=
      nodeSongId_nonsong (by rw [hap]; exact he) hens
    have haRem : a ∈ removeSongNodes st.nodes i :=
      mem_removeSongNodes.mpr ⟨ha, by simp [hansid]⟩
    have haPr : a ∈ pruneNodes (removeSongNodes st.nodes i) :=
      mem_pruneNodes.mpr ⟨haRem, Or.inr ⟨m, hmRem, hmSong, by rw [hap]; exact hmSp⟩⟩
    exact ⟨a, haPr, hap⟩
  · exact hc

theorem coherent_insertSong (st : LibState) (s : Song)
    (hco : Coherent st) : Coherent (insertSong st s) := by
  unfold insertSong
  split
  · exact hco
  · intro n hn j hj
    rcases insertNodes_sub s _ _ _ hn with hn' | hn'
    · exact hco n hn' j hj
    · rcases newNodes_char s _ _ hn' with rfl | ⟨_, _, i', hi', hlast⟩
      · simp only [List.getLast?_concat, Option.some.injEq] at hj
        have hid : s.id = j := by
          simpa [PElem.song.injEq] using hj
        refine ⟨s, rfl, hid, ?_⟩
        simp [fullPathOf]
      · rw [hj] at hlast
        injection hlast with h2
        exact absurd h2.symm (songStepInfos_elem_nonsong st.group_by s i' hi' j)

theorem coherent_deleteSong (st : LibState) (i : Nat)
    (hco : Coherent st) : Coherent (deleteSong st i) := by
  unfold deleteSong
  split
  · intro n hn j hj
    exact hco n ((mem_removeSongNodes.mp (mem_pruneNodes.mp hn).1).1) j hj
  · exact hco

theorem inv_insertSong (st : LibState) (s : Song) (h : Inv st) :
    Inv (insertSong st s) :=
  ⟨occ_insertSong st s h.1, closure_insertSong st s h.2.1,
    coherent_insertSong st s h.2.2⟩

theorem inv_deleteSong (st : LibState) (i : Nat) (h : Inv st) :
    Inv (deleteSong st i) :=
  ⟨occ_deleteSong st i h.1, closure_deleteSong st i h.2.1 h.2.2,
    coherent_deleteSong st i h.2.2⟩

theorem inv_resetState (st : LibState) : Inv (resetState st) := by
  refine ⟨?_, ?_, ?_⟩ <;> intro n hn <;> simp [resetState] at hn

theorem inv_setGroupBy (st : LibState) (g' : Grouping) (h : Inv st) :
    Inv (setGroupBy st g') := by
  unfold setGroupBy
  split
  · exact h
  · refine ⟨?_, ?_, ?_⟩ <;> intro n hn <;> simp at hn

theorem inv_initState (g : Grouping) : Inv (initState g) := by
  refine ⟨?_, ?_, ?_⟩ <;> intro n hn <;> simp [initState] at hn

/- ---------------------------------------------------------------------
   Helper lemmas: dividers sit at the top level, over a container
   --------------------------------------------------------------------- -/

theorem activeLevels_cases (g : Grouping) :
    activeLevels g = [] ∨ ∃ rest, activeLevels g = (0, g.first) :: rest := by
  unfold activeLevels
  split
  · exact Or.inl rfl
  · exact Or.inr ⟨_, rfl⟩

theorem songStepInfos_tail_no_div (g : Grouping) (s : Song) :
    ∀ i ∈ (songStepInfos g s).drop 1, ∀ k, i.elem ≠ PElem.div k := by
  intro i hi k
  rcases activeLevels_cases g with hact | ⟨rest, hact⟩
  · simp only [songStepInfos, hact] at hi
    simp at hi
  · simp only [songStepInfos, hact] at hi
    split at hi
    · simp only [List.drop_succ_cons, List.drop_zero] at hi
      obtain ⟨p, _, rfl⟩ := List.mem_map.mp hi
      obtain ⟨key, hk⟩ := stepInfoFor_elem p.2 p.1 s
      simp [hk]
    · unfold dividerInfoFor at hi
      split at hi
      · simp only [List.singleton_append, List.drop_succ_cons,
          List.drop_zero] at hi
        rcases List.mem_cons.mp hi with rfl | hi
        · obtain ⟨key, hk⟩ := stepInfoFor_elem g.first 0 s
          simp [hk]
        · obtain ⟨p, _, rfl⟩ := List.mem_map.mp hi
          obtain ⟨key, hk⟩ := stepInfoFor_elem p.2 p.1 s
          simp [hk]
      · simp only [List.nil_append, List.drop_succ_cons, List.drop_zero] at hi
        obtain ⟨p, _, rfl⟩ := List.mem_map.mp hi
        obtain ⟨key, hk⟩ := stepInfoFor_elem p.2 p.1 s
        simp [hk]

theorem songStepInfos_head_div (g : Grouping) (s : Song) (i0 : StepInfo)
    (t : List StepInfo) (h : songStepInfos g s = i0 :: t) (k : String)
    (hdiv : i0.elem = PElem.div k) :
    ∃ i1 t', t = i1 :: t' ∧ ∃ key, i1.elem = PElem.cont 0 key := by
  rcases activeLevels_cases g with hact | ⟨rest, hact⟩
  · simp only [songStepInfos, hact] at h
    simp at h
  · simp only [songStepInfos, hact] at h
    split at h
    · injection h with h1 h2
      rw [← h1] at hdiv
      simp [compStepInfo] at hdiv
    · unfold dividerInfoFor at h
      split at h
      · simp only [List.singleton_append] at h
        injection h with h1 h2
        exact ⟨stepInfoFor g.first 0 s, _, h2.symm, stepInfoFor_elem g.first 0 s⟩
      · simp only [List.nil_append] at h
        injection h with h1 h2
        rw [← h1] at hdiv
        obtain ⟨key, hk⟩ := stepInfoFor_elem g.first 0 s
        rw [hk] at hdiv
        simp at hdiv

theorem div_path_structure (g : Grouping) (s : Song) {q : List PElem}
    {k : String} (hlast : q.getLast? = some (PElem.div k))
    (hspfx : strictPfxB q (fullPathOf g s) = true) :
    q = [PElem.div k] ∧
    ∃ key, strictPfxB [PElem.div k, PElem.cont 0 key] (fullPathOf g s) = true := by
  obtain ⟨r, hr, hfull⟩ := spfx_exists hspfx
  rcases List.eq_nil_or_concat q with rfl | ⟨q', e, rfl⟩
  · simp at hlast
  · rw [List.concat_eq_append] at hlast hfull ⊢
    rw [List.getLast?_concat] at hlast
    injection hlast with hlast
    subst hlast
    unfold fullPathOf at hfull ⊢
    cases q' with
    | nil =>
      simp only [List.nil_append] at hfull ⊢
      refine ⟨by simp, ?_⟩
      cases helems : songStepInfos g s with
      | nil =>
        rw [helems] at hfull
        simp only [List.map_nil, List.nil_append, List.singleton_append] at hfull
        injection hfull with h1 h2
        simp at h1
      | cons i0 t =>
        rw [helems] at hfull
        simp only [List.map_cons, List.cons_append, List.singleton_append] at hfull
        injection hfull with h1 h2
        obtain ⟨i1, t', rfl, key, hi1⟩ :=
          songStepInfos_head_div g s i0 t helems k h1
        refine ⟨key, ?_⟩
        simp only [List.map_cons, List.cons_append]
        rw [h1, hi1]
        exact spfx_cons₂ (spfx_cons₂ (spfx_nil_left (by simp)))
    | cons a q'' =>
      exfalso
      cases helems : songStepInfos g s with
      | nil =>
        rw [helems] at hfull
        simp only [List.map_nil, List.nil_append, List.cons_append] at hfull
        injection hfull with h1 h2
        exact absurd h2.symm (by simp)
      | cons i0 t =>
        rw [helems] at hfull
        simp only [List.map_cons, List.cons_append] at hfull
        injection hfull with h1 h2
        rw [List.append_assoc] at h2
        have hmem : PElem.div k ∈ t.map StepInfo.elem :=
          mem_of_middle _ _ q'' (PElem.div k) r (by simpa using h2) hr
        obtain ⟨i, hi, hie⟩ := List.mem_map.mp hmem
        refine songStepInfos_tail_no_div g s i ?_ k hie
        rw [helems]
        simpa using hi

theorem dividerHasContainer_of_inv (st : LibState) (h : Inv st) :
    DividerHasContainer st := by
  obtain ⟨hocc, hclos, hco⟩ := h
  intro n hn hdiv
  obtain ⟨k, hlast⟩ : ∃ k, n.path.getLast? = some (PElem.div k) := by
    unfold isDividerT at hdiv
    split at hdiv
    · rename_i heq
      exact ⟨_, heq⟩
    · simp at hdiv
  have hnotsong : isSongNodeT n = false := by
    unfold isSongNodeT nodeSongId
    rw [hlast]
    rfl
  obtain ⟨m, hm, hmSong, hmSp⟩ := hocc n hn hnotsong
  obtain ⟨j, hj⟩ := isSongNodeT_iff.mp hmSong
  obtain ⟨sm, _, _, hsm3⟩ := hco m hm j (nodeSongId_eq_some.mp hj)
  have hspfx : strictPfxB n.path (fullPathOf st.group_by sm) = true := by
    rw [← hsm3]
    exact hmSp
  obtain ⟨hq1, key, hq2⟩ := div_path_structure st.group_by sm hlast hspfx
  have hq2' : strictPfxB [PElem.div k, PElem.cont 0 key] m.path = true := by
    rw [hsm3]
    exact hq2
  obtain ⟨a, ha, hap⟩ := hclos m hm [PElem.div k, PElem.cont 0 key] (by simp) hq2'
  refine ⟨a, ha, ?_, ?_, ?_⟩
  · unfold isContainerT
    rw [hap]
    rfl
  · rw [hap, hq1]
    exact spfx_cons₂ (spfx_nil_left (by simp))
  · rw [hap, hq1]
    rfl

/- ---------------------------------------------------------------------
   Claim C3
   --------------------------------------------------------------------- -/

/-- C3: after every operation — song insertion, song deletion, reset and
regrouping — on a state satisfying the tree invariant, the invariant still
holds: every Container or Divider has at least one SongNode currently
descending from it (childless Containers and Dividers are pruned in the
same operation, never left behind), every ancestor position of a node is
itself a node (a SongNode descending below a container position implies
that Container exists — the converse direction of the claim's "iff"),
every SongNode sits at its song's key path, and every Divider has at
least one sibling Container directly under it. -/
theorem c3_invariants_preserved (st : LibState) (s : Song) (i : Nat)
    (g' : Grouping) (hinv : Inv st) :
    (Inv (insertSong st s) ∧ DividerHasContainer (insertSong st s)) ∧
    (Inv (deleteSong st i) ∧ DividerHasContainer (deleteSong st i)) ∧
    (Inv (resetState st) ∧ DividerHasContainer (resetState st)) ∧
    (Inv (setGroupBy st g') ∧ DividerHasContainer (setGroupBy st g')) := by
  have h1 := inv_insertSong st s hinv
  have h2 := inv_deleteSong st i hinv
  have h3 := inv_resetState st
  have h4 := inv_setGroupBy st g' hinv
  exact ⟨⟨h1, dividerHasContainer_of_inv _ h1⟩,
    ⟨h2, dividerHasContainer_of_inv _ h2⟩,
    ⟨h3, dividerHasContainer_of_inv _ h3⟩,
    ⟨h4, dividerHasContainer_of_inv _ h4⟩⟩

/-- C3 witness: the invariant package holds for a concrete insertion into
the empty Artist/Album tree (and for delete/reset/regroup on it). -/
theorem c3_invariants_preserved_witness :
    Inv (insertSong (initState ⟨.GroupBy_Artist, .GroupBy_Album, .GroupBy_None⟩)
        ⟨1, "The Who", "Tommy", "", "", "", "Pinball Wizard", "", 1969, 1, 0, false⟩) ∧
    DividerHasContainer
      (insertSong (initState ⟨.GroupBy_Artist, .GroupBy_Album, .GroupBy_None⟩)
        ⟨1, "The Who", "Tommy", "", "", "", "Pinball Wizard", "", 1969, 1, 0, false⟩) :=
  (c3_invariants_preserved
    (initState ⟨.GroupBy_Artist, .GroupBy_Album, .GroupBy_None⟩)
    ⟨1, "The Who", "Tommy", "", "", "", "Pinball Wizard", "", 1969, 1, 0, false⟩
    1 defaultGrouping
    (inv_initState ⟨.GroupBy_Artist, .GroupBy_Album, .GroupBy_None⟩)).1

end Clementine
